import Mathlib

/-!
# EventLoop: timer registry, timeout pass and descriptor registration

A shallow embedding of `src/eventloop.cc` (namespace `eventloop`).

* Event objects live on the caller's heap and the library only keeps pointers to
  them.  A `BaseTimerEvent *` is modelled by the address it holds; the object's
  deadline is read through `GetTime`, a function from addresses to `timeval`.
* `TimerManager::timers_` is a `std::set<BaseTimerEvent *, Compare>`.  It is
  modelled twice.  `TimerSet` is the sequence of its elements in iteration order
  with the operations of an ordered unique-key container; `begin()` and
  `erase(begin())` are the head and the tail of that sequence in every state,
  `insert` and `erase(key)` are those of the container as long as the sequence is
  in deadline order.  `Rb.Tree` is the red-black tree of the GNU implementation
  with its own search, insertion and erasure, which also says what the calls do
  once the deadline of a tracked event has been changed.  The two agree on
  registries in deadline order (section "The tree and the sequence").
* The epoll interest list of the kernel is modelled by an association list from
  descriptors to the `epoll_event` registered for them.
-/

namespace eventloop

/-! ## Data model -/

/-- The C `struct timeval`: seconds and microseconds. -/
structure timeval where
  tv_sec : Int
  tv_usec : Int
  deriving DecidableEq, Repr

/-- A `BaseTimerEvent *`: the address of a timer event object (its identity). -/
abbrev BaseTimerEvent := Nat

/-- The heap as far as timers are concerned: `e->GetTime()` for each pointer. -/
abbrev TimeHeap := BaseTimerEvent → timeval

/-- `TimerManager::Compare::operator()`: strict order on the deadlines only. -/
def TimerManager.Compare (GetTime : TimeHeap) (e1 e2 : BaseTimerEvent) : Bool :=
  let t1 := GetTime e1
  let t2 := GetTime e2
  decide (t1.tv_sec < t2.tv_sec) || (decide (t1.tv_sec = t2.tv_sec) && decide (t1.tv_usec < t2.tv_usec))

/-- `TimerManager::TimerSet`, i.e. `std::set<BaseTimerEvent *, Compare>`, as the
sequence of its elements in iteration order (`begin()` is the head). -/
abbrev TimerSet := List BaseTimerEvent

/-- `std::set::insert(e)` on the iteration sequence of a set in deadline order:
walk the elements in order; `e` goes in front of the first element it is ordered
before, and is refused when an element equivalent to it (neither ordered before
the other) is met.  Returns the new set and the `.second` of the C++ result
(whether the insertion took place).  For a set whose order was disturbed by a
changed deadline see `Rb.insertUnique`. -/
def TimerSet.insert (GetTime : TimeHeap) (e : BaseTimerEvent) : TimerSet → TimerSet × Bool
  | [] => ([e], true)
  | x :: xs =>
    if TimerManager.Compare GetTime e x then (e :: x :: xs, true)
    else if TimerManager.Compare GetTime x e then
      ((x :: (TimerSet.insert GetTime e xs).1), (TimerSet.insert GetTime e xs).2)
    else (x :: xs, false)

/-- Equivalence of keys in the container: neither is ordered before the other. -/
def TimerSet.equiv (GetTime : TimeHeap) (x e : BaseTimerEvent) : Bool :=
  !TimerManager.Compare GetTime x e && !TimerManager.Compare GetTime e x

/-- `std::set::erase(key)` on the iteration sequence of a set in deadline order:
removes every element equivalent to the key and returns how many were removed.
For a set whose order was disturbed by a changed deadline see `Rb.eraseKey`. -/
def TimerSet.erase (GetTime : TimeHeap) (e : BaseTimerEvent) (s : TimerSet) : TimerSet × Nat :=
  (s.filter (fun x => !TimerSet.equiv GetTime x e),
   (s.filter (fun x => TimerSet.equiv GetTime x e)).length)

/-- `TimerManager::AddEvent`: `return !timers_.insert(e).second;`.
Returns the new `timers_` and the `int` result. -/
def TimerManager.AddEvent (GetTime : TimeHeap) (e : BaseTimerEvent) (timers_ : TimerSet) :
    TimerSet × Int :=
  let r := TimerSet.insert GetTime e timers_
  (r.1, if r.2 then 0 else 1)

/-- `TimerManager::DeleteEvent`: `return timers_.erase(e) != 1;`. -/
def TimerManager.DeleteEvent (GetTime : TimeHeap) (e : BaseTimerEvent) (timers_ : TimerSet) :
    TimerSet × Int :=
  let r := TimerSet.erase GetTime e timers_
  (r.1, if r.2 ≠ 1 then 1 else 0)

/-- `TimerManager::UpdateEvent`: `timers_.erase(e); return !timers_.insert(e).second;`. -/
def TimerManager.UpdateEvent (GetTime : TimeHeap) (e : BaseTimerEvent) (timers_ : TimerSet) :
    TimerSet × Int :=
  let erased := (TimerSet.erase GetTime e timers_).1
  let r := TimerSet.insert GetTime e erased
  (r.1, if r.2 then 0 else 1)

/-- A call on the timer registry. -/
inductive TimerOp where
  | add (e : BaseTimerEvent)
  | delete (e : BaseTimerEvent)
  | update (e : BaseTimerEvent)
  deriving DecidableEq, Repr

/-- The registry after one call (the `int` result is dropped). -/
def TimerOp.apply (GetTime : TimeHeap) (timers_ : TimerSet) : TimerOp → TimerSet
  | .add e => (TimerManager.AddEvent GetTime e timers_).1
  | .delete e => (TimerManager.DeleteEvent GetTime e timers_).1
  | .update e => (TimerManager.UpdateEvent GetTime e timers_).1

/-- The registry after a sequence of calls, starting from `timers_`. -/
def runOps (GetTime : TimeHeap) (ops : List TimerOp) (timers_ : TimerSet) : TimerSet :=
  ops.foldl (TimerOp.apply GetTime) timers_

/-- The event popped next is due: the negation of the `break` test of
`EventLoop::DoTimeout`, on the deadline `tv` and the cached clock `now_`. -/
def due (now_ tv : timeval) : Bool :=
  !(decide (tv.tv_sec > now_.tv_sec) || (decide (tv.tv_sec = now_.tv_sec) && decide (tv.tv_usec > now_.tv_usec)))

/-- What timer handlers can see and change: the registry, the event objects'
deadlines, and any further state of the application. -/
structure World (σ : Type) where
  timers_ : TimerSet
  GetTime : TimeHeap
  user : σ

/-- The outcome of a `DoTimeout` pass: the returned count, the world it leaves,
and the events on which `Process(TIMER)` was called, in call order. -/
structure DoTimeoutResult (σ : Type) where
  ret : Int
  world : World σ
  fired : List BaseTimerEvent

/-- The loop of `EventLoop::DoTimeout`, with the iteration bound `fuel`.
`Process e w` is `e->Process(BaseTimerEvent::TIMER)` run in world `w`.
Each iteration reads `timers.begin()`, leaves when the set is empty or its first
deadline is after `now_`, and otherwise counts, erases that element, calls the
handler and starts again from `begin()`. -/
def EventLoop.DoTimeout.loop {σ : Type} (Process : BaseTimerEvent → World σ → World σ)
    (now_ : timeval) : Nat → World σ → Int → List BaseTimerEvent → Option (DoTimeoutResult σ)
  | 0, _, _, _ => none
  | fuel + 1, w, n, fired =>
    match w.timers_ with
    | [] => some ⟨n, w, fired⟩
    | e :: rest =>
      if due now_ (w.GetTime e) then
        EventLoop.DoTimeout.loop Process now_ fuel
          (Process e { w with timers_ := rest }) (n + 1) (fired ++ [e])
      else some ⟨n, w, fired⟩

/-- `EventLoop::DoTimeout`: `n = 0`, then the loop. `none` means the loop did not
leave within `fuel` iterations. -/
def EventLoop.DoTimeout {σ : Type} (Process : BaseTimerEvent → World σ → World σ)
    (now_ : timeval) (fuel : Nat) (w : World σ) : Option (DoTimeoutResult σ) :=
  EventLoop.DoTimeout.loop Process now_ fuel w 0 []

/-- Conversion of a `long` value to `int` on the usual two's-complement targets:
reduction modulo 2^32 into the range of a 32-bit signed integer. -/
def toInt32 (x : Int) : Int := (x + 2 ^ 31) % 2 ^ 32 - 2 ^ 31

/-- The timeout computed by one iteration of `EventLoop::StartLoop` and passed to
`ProcessEvents`: 100, or, when `timers_` is not empty, the smaller of 100 and
`int t = tv.tv_sec * 1000 + tv.tv_usec / 1000` for the deadline `tv` of
`timers_.begin()`.  The sum is formed in `long` (taken here without overflow) and
narrowed to `int`; `/` is the truncating division of C. -/
def EventLoop.StartLoop.timeout (GetTime : TimeHeap) (timers_ : TimerSet) : Int :=
  match timers_ with
  | [] => 100
  | ite :: _ =>
    let tv := GetTime ite
    let t := toInt32 (tv.tv_sec * 1000 + Int.tdiv tv.tv_usec 1000)
    if 100 > t then t else 100

/-- The wait timeout as the specification words it: the poll tick of 100 ms, or,
when the earliest deadline is less than 100 ms after `now`, the duration from
`now` to that deadline in milliseconds, not below 0. -/
def specTimeout (now : timeval) (GetTime : TimeHeap) (timers_ : TimerSet) : Int :=
  match timers_ with
  | [] => 100
  | ite :: _ =>
    let remaining := ((GetTime ite).tv_sec - now.tv_sec) * 1000 +
      ((GetTime ite).tv_usec - now.tv_usec) / 1000
    if 100 ≤ remaining then 100 else max 0 remaining

/-! ### Descriptor events and the epoll interest list -/

/-- The readiness flag `EPOLLIN` of `<sys/epoll.h>`. -/
def EPOLLIN : Nat := 0x001
/-- The readiness flag `EPOLLOUT` of `<sys/epoll.h>`. -/
def EPOLLOUT : Nat := 0x004
/-- The readiness flag `EPOLLERR` of `<sys/epoll.h>`. -/
def EPOLLERR : Nat := 0x008
/-- The readiness flag `EPOLLHUP` of `<sys/epoll.h>`. -/
def EPOLLHUP : Nat := 0x010
/-- The readiness flag `EPOLLRDHUP` of `<sys/epoll.h>`. -/
def EPOLLRDHUP : Nat := 0x2000

/-- The constants `BaseFileEvent::READ`, `BaseFileEvent::WRITE` and
`BaseFileEvent::ERROR`.  They are declared in `eventloop.h`, which is not among
the sources at hand, and are taken as parameters. -/
structure FileEventBits where
  READ : Nat
  WRITE : Nat
  ERROR : Nat

/-- Three different bits for the constants, used at explicit inputs. -/
def bits124 : FileEventBits := ⟨1, 2, 4⟩

/-- A `BaseFileEvent *`: the address of the object, `GetFile()` and `GetType()`. -/
structure BaseFileEvent where
  ptr : Nat
  file : Int
  type : Nat
  deriving DecidableEq, Repr

/-- The C `struct epoll_event`: the flag word and the user pointer. -/
structure epoll_event where
  events : Nat
  data_ptr : Nat
  deriving DecidableEq, Repr

/-- The operations of `epoll_ctl`. -/
inductive EpollOp where
  | EPOLL_CTL_ADD
  | EPOLL_CTL_MOD
  | EPOLL_CTL_DEL
  deriving DecidableEq, Repr

/-- The interest list of the epoll instance `epfd_`: the registered descriptors
with the event registered for each. -/
abbrev EpollSet := List (Int × epoll_event)

/-- Whether descriptor `fd` is in the interest list. -/
def EpollSet.registered (interest : EpollSet) (fd : Int) : Bool :=
  interest.any (fun p => decide (p.1 = fd))

/-- The system call `epoll_ctl(epfd_, op, fd, &ev)` on open descriptors that
support polling (sockets, pipes; a regular file is refused with `EPERM`), after
its manual page: `EPOLL_CTL_ADD` fails (-1, `EEXIST`) on a registered descriptor
and registers it otherwise; `EPOLL_CTL_MOD` and `EPOLL_CTL_DEL` fail (-1,
`ENOENT`) on a descriptor that is not registered and otherwise replace,
respectively remove, its registration.  Success is 0. -/
def epoll_ctl (interest : EpollSet) (op : EpollOp) (fd : Int) (ev : epoll_event) :
    EpollSet × Int :=
  match op with
  | .EPOLL_CTL_ADD =>
    if interest.registered fd then (interest, -1) else (interest ++ [(fd, ev)], 0)
  | .EPOLL_CTL_MOD =>
    if interest.registered fd then
      (interest.map (fun p => if p.1 = fd then (fd, ev) else p), 0)
    else (interest, -1)
  | .EPOLL_CTL_DEL =>
    if interest.registered fd then (interest.filter (fun p => !decide (p.1 = fd)), 0)
    else (interest, -1)

/-- The `epoll_event` that `EventLoop::AddEvent(BaseFileEvent *)` fills in before
the system call: each `if` tests `type | CONSTANT`. -/
def EventLoop.AddEvent.ev (B : FileEventBits) (e : BaseFileEvent) : epoll_event :=
  let type := e.type
  let events := 0
  let events := if (type ||| B.READ) ≠ 0 then events ||| EPOLLIN else events
  let events := if (type ||| B.WRITE) ≠ 0 then events ||| EPOLLOUT else events
  let events := if (type ||| B.ERROR) ≠ 0 then
    events ||| (EPOLLHUP ||| EPOLLERR ||| EPOLLRDHUP) else events
  ⟨events, e.ptr⟩

/-- `EventLoop::AddEvent(BaseFileEvent *)`: the result of
`epoll_ctl(epfd_, EPOLL_CTL_ADD, e->GetFile(), &ev)`.  `SetNonblocking` changes
the descriptor's file status flags, which are not part of the interest list. -/
def EventLoop.AddEvent (B : FileEventBits) (interest : EpollSet) (e : BaseFileEvent) :
    EpollSet × Int :=
  epoll_ctl interest .EPOLL_CTL_ADD e.file (EventLoop.AddEvent.ev B e)

/-- The `epoll_event` that `EventLoop::UpdateEvent(BaseFileEvent *)` fills in. -/
def EventLoop.UpdateEvent.ev (B : FileEventBits) (e : BaseFileEvent) : epoll_event :=
  let type := e.type
  let events := 0
  let events := if (type ||| B.READ) ≠ 0 then events ||| EPOLLIN else events
  let events := if (type ||| B.WRITE) ≠ 0 then events ||| EPOLLOUT else events
  let events := if (type ||| B.ERROR) ≠ 0 then
    events ||| (EPOLLHUP ||| EPOLLERR ||| EPOLLRDHUP) else events
  ⟨events, e.ptr⟩

/-- `EventLoop::UpdateEvent(BaseFileEvent *)`: the result of
`epoll_ctl(epfd_, EPOLL_CTL_MOD, e->GetFile(), &ev)`. -/
def EventLoop.UpdateEvent (B : FileEventBits) (interest : EpollSet) (e : BaseFileEvent) :
    EpollSet × Int :=
  epoll_ctl interest .EPOLL_CTL_MOD e.file (EventLoop.UpdateEvent.ev B e)

/-- `EventLoop::DeleteEvent(BaseFileEvent *)`: the result of
`epoll_ctl(epfd_, EPOLL_CTL_DEL, e->GetFile(), &ev)`; the event argument is not
read by the removal. -/
def EventLoop.DeleteEvent (interest : EpollSet) (e : BaseFileEvent) : EpollSet × Int :=
  epoll_ctl interest .EPOLL_CTL_DEL e.file ⟨0, 0⟩

/-- The reason mask that the `for` loop of `EventLoop::ProcessEvents` builds from
the native flag word `evs_[i].events` and passes to `Process`. -/
def EventLoop.ProcessEvents.reason (B : FileEventBits) (native : Nat) : Nat :=
  let events := 0
  let events := if native &&& EPOLLIN ≠ 0 then events ||| B.READ else events
  let events := if native &&& EPOLLOUT ≠ 0 then events ||| B.WRITE else events
  let events := if native &&& (EPOLLHUP ||| EPOLLERR ||| EPOLLRDHUP) ≠ 0 then
    events ||| B.ERROR else events
  events

/-- The `interest` mask is a subset of `{READ, WRITE, ERROR}`. -/
def FileEventBits.isMask (B : FileEventBits) (m : Nat) : Prop :=
  m &&& (B.READ ||| B.WRITE ||| B.ERROR) = m

/-- The flag word `x` has every bit of `flag`. -/
def hasFlag (x flag : Nat) : Prop := x &&& flag = flag

/-- A heap on which event 1 is due 50 ms after 1700000000 s. -/
def heapEpoch : TimeHeap := fun _ => ⟨1700000000, 50000⟩

/-- A heap on which event 1 is due 50 ms after 1000 s. -/
def heapThousand : TimeHeap := fun _ => ⟨1000, 50000⟩

/-! ### The red-black tree behind `timers_` -/

namespace Rb

/-- The node colour `_Rb_tree_color`. -/
inductive Color where
  | red
  | black
  deriving DecidableEq, Repr

/-- The tree of `_Rb_tree` nodes below the header: a null link, or a node with its
colour, left subtree, stored pointer and right subtree. -/
inductive Tree where
  | nil : Tree
  | node (color : Color) (left : Tree) (value : BaseTimerEvent) (right : Tree) : Tree
  deriving DecidableEq, Repr

/-- The elements in iteration order (`begin()` to `end()`). -/
def Tree.toList : Tree → List BaseTimerEvent
  | .nil => []
  | .node _ l v r => l.toList ++ v :: r.toList

/-- The number of nodes, `size()`. -/
def Tree.size : Tree → Nat
  | .nil => 0
  | .node _ l _ r => l.size + 1 + r.size

/-- The test `x != 0 && x->_M_color == _S_red`. -/
def Tree.isRed : Tree → Bool
  | .node .red _ _ _ => true
  | _ => false

/-- The assignment `x->_M_color = c` on a node; nothing on a null link. -/
def Tree.setColor (c : Color) : Tree → Tree
  | .nil => .nil
  | .node _ l v r => .node c l v r

/-- The rotation `local_Rb_tree_rotate_left(x, root)` at the root `x` of the
subtree: its right child takes its place.  Nodes keep their colours. -/
def rotateLeft : Tree → Tree
  | .node c a x (.node c' b y d) => .node c' (.node c a x b) y d
  | t => t

/-- The rotation `local_Rb_tree_rotate_right(x, root)` at the root `x` of the
subtree: its left child takes its place.  Nodes keep their colours. -/
def rotateRight : Tree → Tree
  | .node c (.node c' a x b) y d => .node c' a x (.node c b y d)
  | t => t

/-- The outcome of `_M_get_insert_unique_pos(k)` as far as `insert` uses it:
whether the key may be inserted.  The descent goes left where `k` is ordered
before the node and right otherwise; `j` is the node at which it last went right
(the `--j` of the source, or `y` itself), and no such node means `j == begin()`.
The key is refused when `j` is not ordered before it. -/
def getInsertUniquePos (GetTime : TimeHeap) (k : BaseTimerEvent) :
    Tree → Option BaseTimerEvent → Bool
  | .nil, none => true
  | .nil, some j => TimerManager.Compare GetTime j k
  | .node _ l v r, j =>
    if TimerManager.Compare GetTime k v then getInsertUniquePos GetTime k l j
    else getInsertUniquePos GetTime k r (some v)

/-- Where the loop of `_Rb_tree_insert_and_rebalance` stands when it is looked at
from the parent of a subtree: the loop has ended (`done`); the root of the
subtree is the loop variable `x` (`atX`); or the root of the subtree is the red
parent of `x`, and `x` is its left or its right child (`redParent`). -/
inductive InsertState where
  | done
  | atX
  | redParent (xIsLeft : Bool)
  deriving DecidableEq, Repr

/-- One turn of the rebalancing loop seen at a node with colour `c`, value `v`,
right subtree `r`, whose left subtree `l` holds `x`.  With `x` the left child
itself the loop goes on iff this node is red.  With the left child the red parent
of `x`, this node is `xpp` and `r` the uncle `y`: a red uncle gives the
recolouring and `x = xpp`; otherwise the rotations, and the loop ends. -/
def insertFixLeft (c : Color) (l : Tree) (v : BaseTimerEvent) (r : Tree) :
    InsertState → Tree × InsertState
  | .done => (.node c l v r, .done)
  | .atX => if c = .red then (.node c l v r, .redParent true) else (.node c l v r, .done)
  | .redParent xIsLeft =>
    if r.isRed then
      (.node .red (l.setColor .black) v (r.setColor .black), .atX)
    else
      (rotateRight
        (.node .red ((if xIsLeft then l else rotateLeft l).setColor .black) v r), .done)

/-- The mirror image of `insertFixLeft`, for `x` in the right subtree. -/
def insertFixRight (c : Color) (l : Tree) (v : BaseTimerEvent) (r : Tree) :
    InsertState → Tree × InsertState
  | .done => (.node c l v r, .done)
  | .atX => if c = .red then (.node c l v r, .redParent false) else (.node c l v r, .done)
  | .redParent xIsLeft =>
    if l.isRed then
      (.node .red (l.setColor .black) v (r.setColor .black), .atX)
    else
      (rotateLeft
        (.node .red l v ((if xIsLeft then rotateRight r else r).setColor .black)), .done)

/-- The descent of `_M_get_insert_unique_pos`, the new red node linked at the
null link it reaches, and the rebalancing loop on the way back to the root. -/
def insertRec (GetTime : TimeHeap) (k : BaseTimerEvent) : Tree → Tree × InsertState
  | .nil => (.node .red .nil k .nil, .atX)
  | .node c l v r =>
    if TimerManager.Compare GetTime k v then
      insertFixLeft c (insertRec GetTime k l).1 v r (insertRec GetTime k l).2
    else
      insertFixRight c l v (insertRec GetTime k r).1 (insertRec GetTime k r).2

/-- The function `_Rb_tree_insert_and_rebalance` at the position found by the
descent; it ends with `root->_M_color = _S_black`. -/
def insertAndRebalance (GetTime : TimeHeap) (k : BaseTimerEvent) (t : Tree) : Tree :=
  (insertRec GetTime k t).1.setColor .black

/-- The member `_M_insert_unique(k)`, which is `std::set::insert`: the tree
afterwards and `.second`. -/
def insertUnique (GetTime : TimeHeap) (k : BaseTimerEvent) (t : Tree) : Tree × Bool :=
  if getInsertUniquePos GetTime k t none then (insertAndRebalance GetTime k t, true)
  else (t, false)

/-- Unlinking a node of colour `c` that has at most one child `x`: `x` takes its
place.  A red node leaves nothing to repair; below a black node a red `x` is
coloured black; otherwise the repair loop of `_Rb_tree_rebalance_for_erase`
starts at `x` (second component `true`). -/
def unlink (c : Color) (x : Tree) : Tree × Bool :=
  if c = .red then (x, false)
  else if x.isRed then (x.setColor .black, false)
  else (x, true)

/-- The repair loop at `x_parent` (colour `c`, value `v`) with `x` the left child
`l` and the sibling `w` not red.  When both children of `w` are black or null,
`w` becomes red and `x = x_parent`: the loop ends there if `x_parent` is red (it
is then coloured black) and goes on above it otherwise.  In the other case the
one or two rotations of the source, and `break`.  A null `w` is dereferenced by
the source and does not occur in a red-black tree. -/
def blackSiblingLeft (c : Color) (l : Tree) (v : BaseTimerEvent) : Tree → Tree × Bool
  | .nil => (.node c l v .nil, false)
  | .node wc wl wv wr =>
    if !wl.isRed && !wr.isRed then
      (.node .black l v (.node .red wl wv wr), decide (c = .black))
    else
      match (if !wr.isRed then rotateRight (.node .red (wl.setColor .black) wv wr)
             else .node wc wl wv wr) with
      | .node _ wl' wv' wr' =>
        (.node c (.node .black l v wl') wv' (wr'.setColor .black), false)
      | .nil => (.node c l v .nil, false)

/-- The mirror image of `blackSiblingLeft`: `x` is the right child `r`. -/
def blackSiblingRight (c : Color) (v : BaseTimerEvent) (r : Tree) : Tree → Tree × Bool
  | .nil => (.node c .nil v r, false)
  | .node wc wl wv wr =>
    if !wr.isRed && !wl.isRed then
      (.node .black (.node .red wl wv wr) v r, decide (c = .black))
    else
      match (if !wl.isRed then rotateLeft (.node .red wl wv (wr.setColor .black))
             else .node wc wl wv wr) with
      | .node _ wl' wv' wr' =>
        (.node c (wl'.setColor .black) wv' (.node .black wr' v r), false)
      | .nil => (.node c .nil v r, false)

/-- One turn of the repair loop at `x_parent` with `x` the left child.  A red
sibling `w` is coloured black, `x_parent` red, and rotated above `x_parent`; the
turn goes on with the new sibling, and ends the loop since `x_parent` is red. -/
def fixDeficitLeft (c : Color) (l : Tree) (v : BaseTimerEvent) (r : Tree) : Tree × Bool :=
  match r with
  | .node .red wl wv wr => (.node .black (blackSiblingLeft .red l v wl).1 wv wr, false)
  | _ => blackSiblingLeft c l v r

/-- The mirror image of `fixDeficitLeft`: `x` is the right child. -/
def fixDeficitRight (c : Color) (l : Tree) (v : BaseTimerEvent) (r : Tree) : Tree × Bool :=
  match l with
  | .node .red wl wv wr => (.node .black wl wv (blackSiblingRight .red v r wr).1, false)
  | _ => blackSiblingRight c v r l

/-- Taking the leftmost node out of a subtree (the successor `y` of a node with
two children): its value, the subtree left, and whether the repair loop goes on
above the subtree. -/
def eraseMin : Tree → Option (BaseTimerEvent × Tree × Bool)
  | .nil => none
  | .node c l v r =>
    match eraseMin l with
    | none => some (v, unlink c r)
    | some (m, l', d) =>
      some (m, if d then fixDeficitLeft c l' v r else (.node c l' v r, false))

/-- The function `_Rb_tree_rebalance_for_erase(z, header)` for the node `z` at
position `i` of the iteration order, seen from the root of a subtree: the subtree
afterwards and whether the repair loop goes on above it.  A node without left
child is replaced by its right child, one without right child by its left child;
otherwise its successor `y` is moved into its place and takes its colour, and
the repair starts where `y` was. -/
def eraseAt : Tree → Nat → Tree × Bool
  | .nil, _ => (.nil, false)
  | .node c l v r, i =>
    if i < l.size then
      if (eraseAt l i).2 then fixDeficitLeft c (eraseAt l i).1 v r
      else (.node c (eraseAt l i).1 v r, false)
    else if i = l.size then
      match l, r with
      | .nil, _ => unlink c r
      | _, .nil => unlink c l
      | _, _ =>
        match eraseMin r with
        | some (m, r', d) => if d then fixDeficitRight c l m r' else (.node c l m r', false)
        | none => (.node c l v r, false)
    else
      if (eraseAt r (i - l.size - 1)).2 then fixDeficitRight c l v (eraseAt r (i - l.size - 1)).1
      else (.node c l v (eraseAt r (i - l.size - 1)).1, false)

/-- The member `erase(iterator)` for the node at position `i`: the repair loop
that reaches the root ends there, and `x->_M_color = _S_black`. -/
def erasePosition (t : Tree) (i : Nat) : Tree :=
  if (eraseAt t i).2 then (eraseAt t i).1.setColor .black else (eraseAt t i).1

/-- The member `_M_lower_bound(x, y, k)` as a position in the iteration order of
the subtree `x`, the position after its last node standing for `y`. -/
def lowerBound (GetTime : TimeHeap) (k : BaseTimerEvent) : Tree → Nat
  | .nil => 0
  | .node _ l v r =>
    if !TimerManager.Compare GetTime v k then lowerBound GetTime k l
    else l.size + 1 + lowerBound GetTime k r

/-- The member `_M_upper_bound(x, y, k)` as a position, as for `lowerBound`. -/
def upperBound (GetTime : TimeHeap) (k : BaseTimerEvent) : Tree → Nat
  | .nil => 0
  | .node _ l v r =>
    if TimerManager.Compare GetTime k v then upperBound GetTime k l
    else l.size + 1 + upperBound GetTime k r

/-- The member `equal_range(k)`: the positions of its two iterators. -/
def equalRange (GetTime : TimeHeap) (k : BaseTimerEvent) : Tree → Nat × Nat
  | .nil => (0, 0)
  | .node _ l v r =>
    if TimerManager.Compare GetTime v k then
      (l.size + 1 + (equalRange GetTime k r).1, l.size + 1 + (equalRange GetTime k r).2)
    else if TimerManager.Compare GetTime k v then equalRange GetTime k l
    else (lowerBound GetTime k l, l.size + 1 + upperBound GetTime k r)

/-- The loop `while (first != last) _M_erase_aux(first++)` over `n` nodes from
position `i` on: after a node is erased its successor stands at its position. -/
def eraseRange : Tree → Nat → Nat → Tree
  | t, _, 0 => t
  | t, i, n + 1 => eraseRange (erasePosition t i) i n

/-- The member `erase(const key_type&)`, which is `std::set::erase(key)`: the
range of `equal_range` is erased, by `clear()` when it is the whole tree, and the
number of erased nodes is returned. -/
def eraseKey (GetTime : TimeHeap) (k : BaseTimerEvent) (t : Tree) : Tree × Nat :=
  if (equalRange GetTime k t).1 = 0 ∧ (equalRange GetTime k t).2 = t.size then (.nil, t.size)
  else (eraseRange t (equalRange GetTime k t).1
          ((equalRange GetTime k t).2 - (equalRange GetTime k t).1),
        (equalRange GetTime k t).2 - (equalRange GetTime k t).1)

/-- `TimerManager::AddEvent` on the tree: `return !timers_.insert(e).second;`. -/
def TimerManager.AddEvent (GetTime : TimeHeap) (e : BaseTimerEvent) (timers_ : Tree) :
    Tree × Int :=
  ((insertUnique GetTime e timers_).1, if (insertUnique GetTime e timers_).2 then 0 else 1)

/-- `TimerManager::DeleteEvent` on the tree: `return timers_.erase(e) != 1;`. -/
def TimerManager.DeleteEvent (GetTime : TimeHeap) (e : BaseTimerEvent) (timers_ : Tree) :
    Tree × Int :=
  ((eraseKey GetTime e timers_).1, if (eraseKey GetTime e timers_).2 ≠ 1 then 1 else 0)

/-- `TimerManager::UpdateEvent` on the tree:
`timers_.erase(e); return !timers_.insert(e).second;`. -/
def TimerManager.UpdateEvent (GetTime : TimeHeap) (e : BaseTimerEvent) (timers_ : Tree) :
    Tree × Int :=
  TimerManager.AddEvent GetTime e (eraseKey GetTime e timers_).1

/-- The tree after one registry call (the `int` result is dropped). -/
def applyOp (GetTime : TimeHeap) (timers_ : Tree) : TimerOp → Tree
  | .add e => (TimerManager.AddEvent GetTime e timers_).1
  | .delete e => (TimerManager.DeleteEvent GetTime e timers_).1
  | .update e => (TimerManager.UpdateEvent GetTime e timers_).1

/-- The tree after a sequence of registry calls, starting from `timers_`. -/
def runOps (GetTime : TimeHeap) (ops : List TimerOp) (timers_ : Tree) : Tree :=
  ops.foldl (applyOp GetTime) timers_

end Rb

/-- The container invariant of `timers_`: its elements, in iteration order, are
strictly increasing for `Compare` under the deadlines currently on the heap. -/
def Ordered (GetTime : TimeHeap) (s : TimerSet) : Prop :=
  s.Pairwise (fun a b => TimerManager.Compare GetTime a b = true)

/-- The tracked events that are due at `now_`, in iteration order. -/
def dueList {σ : Type} (now_ : timeval) (w : World σ) : List BaseTimerEvent :=
  w.timers_.filter (fun x => due now_ (w.GetTime x))

/-- One iteration of the `DoTimeout` loop on a due head: the head is erased and
its handler runs. -/
def popFire {σ : Type} (Process : BaseTimerEvent → World σ → World σ)
    (w : World σ) (e : BaseTimerEvent) : World σ :=
  Process e { w with timers_ := w.timers_.tail }

/-- Handlers that do not touch the registry: the set is left as it is and so are
the deadlines of the tracked events. -/
def Inert {σ : Type} (Process : BaseTimerEvent → World σ → World σ) : Prop :=
  ∀ e w, (Process e w).timers_ = w.timers_ ∧
    ∀ x ∈ w.timers_, (Process e w).GetTime x = w.GetTime x

/-! ### Concrete heaps and handlers used at explicit inputs -/

/-- A heap on which every timer event has the deadline 100 s + 5 ms. -/
def heapSame : TimeHeap := fun _ => ⟨100, 5000⟩

/-- A heap for the three-timer scenario with `now` = 100 s: event 1 is due at
now + 10 ms, every other event at now + 5 ms. -/
def heapThree : TimeHeap := fun e => if e = 1 then ⟨100, 10000⟩ else ⟨100, 5000⟩

/-- A heap with pairwise different deadlines: event `e` is due at `e` seconds. -/
def heapDistinct : TimeHeap := fun e => ⟨(e : Int), 0⟩

/-- A handler that does nothing. -/
def noopProcess : BaseTimerEvent → World Unit → World Unit := fun _ w => w

/-- The heap `heapDistinct` after `SetTime` moved the deadline of event 3 to 6 s. -/
def heapMoved : TimeHeap := fun e => if e = 3 then ⟨6, 0⟩ else ⟨(e : Int), 0⟩

/-- The tree after `AddEvent` of the events 3, 5 and 7, due at 3 s, 5 s and 7 s,
into the empty registry. -/
def treeThree : Rb.Tree :=
  (Rb.TimerManager.AddEvent heapDistinct 7
    (Rb.TimerManager.AddEvent heapDistinct 5
      (Rb.TimerManager.AddEvent heapDistinct 3 .nil).1).1).1

/-- The call does not remove or reschedule an event that has the deadline of `e`:
it is an `AddEvent`, or a `DeleteEvent` or `UpdateEvent` of an event with another
deadline. -/
def TimerOp.keeps (GetTime : TimeHeap) (e : BaseTimerEvent) : TimerOp → Prop
  | .add _ => True
  | .delete x => GetTime x ≠ GetTime e
  | .update x => GetTime x ≠ GetTime e

theorem Compare_iff (g : TimeHeap) (a b : BaseTimerEvent) :
    TimerManager.Compare g a b = true ↔
      ((g a).tv_sec < (g b).tv_sec ∨
        ((g a).tv_sec = (g b).tv_sec ∧ (g a).tv_usec < (g b).tv_usec)) := by
  simp [TimerManager.Compare]

theorem timeval_eq_iff (s t : timeval) :
    s = t ↔ s.tv_sec = t.tv_sec ∧ s.tv_usec = t.tv_usec := by
  cases s; cases t; simp

theorem equiv_iff (g : TimeHeap) (x e : BaseTimerEvent) :
    TimerSet.equiv g x e = true ↔ g x = g e := by
  have h1 := Compare_iff g x e
  have h2 := Compare_iff g e x
  rw [timeval_eq_iff]
  unfold TimerSet.equiv
  cases hc1 : TimerManager.Compare g x e <;> cases hc2 : TimerManager.Compare g e x <;>
    simp [hc1, hc2] at h1 h2 ⊢ <;> omega

theorem due_iff (now tv : timeval) :
    due now tv = true ↔
      (tv.tv_sec < now.tv_sec ∨ (tv.tv_sec = now.tv_sec ∧ tv.tv_usec ≤ now.tv_usec)) := by
  simp [due]
  omega

theorem Compare_irrefl (g : TimeHeap) (a : BaseTimerEvent) :
    TimerManager.Compare g a a = false := by
  have h := Compare_iff g a a
  cases hc : TimerManager.Compare g a a
  · rfl
  · rw [hc] at h; simp at h

theorem Compare_trans (g : TimeHeap) {a b c : BaseTimerEvent}
    (hab : TimerManager.Compare g a b = true) (hbc : TimerManager.Compare g b c = true) :
    TimerManager.Compare g a c = true := by
  rw [Compare_iff] at *
  omega

theorem Compare_ne_time (g : TimeHeap) {a b : BaseTimerEvent}
    (hab : TimerManager.Compare g a b = true) : g a ≠ g b := by
  rw [Compare_iff] at hab
  rw [Ne, timeval_eq_iff]
  omega

theorem Compare_congr_left (g : TimeHeap) {a b : BaseTimerEvent} (c : BaseTimerEvent)
    (h : g a = g b) : TimerManager.Compare g a c = TimerManager.Compare g b c := by
  simp [TimerManager.Compare, h]

theorem Compare_congr_right (g : TimeHeap) {a b : BaseTimerEvent} (c : BaseTimerEvent)
    (h : g a = g b) : TimerManager.Compare g c a = TimerManager.Compare g c b := by
  simp [TimerManager.Compare, h]

/-- A due event stays due when its deadline is replaced by an earlier one. -/
theorem due_of_Compare (g : TimeHeap) (now : timeval) {a b : BaseTimerEvent}
    (hab : TimerManager.Compare g a b = true) (hb : due now (g b) = true) :
    due now (g a) = true := by
  rw [Compare_iff] at hab
  rw [due_iff] at *
  omega

theorem Ordered.nodup {g : TimeHeap} {s : TimerSet} (h : Ordered g s) : s.Nodup := by
  unfold Ordered at h
  refine List.Pairwise.imp ?_ h
  intro a b hab heq
  subst heq
  rw [Compare_irrefl] at hab
  exact Bool.noConfusion hab

/-- In an ordered registry two tracked events with the same deadline are the same. -/
theorem Ordered.eq_of_time_eq {g : TimeHeap} {s : TimerSet} (h : Ordered g s)
    {x y : BaseTimerEvent} (hx : x ∈ s) (hy : y ∈ s) (hxy : g x = g y) : x = y := by
  induction s with
  | nil => cases hx
  | cons a t ih =>
    unfold Ordered at h
    rw [List.pairwise_cons] at h
    rcases List.mem_cons.1 hx with rfl | hx'
    · rcases List.mem_cons.1 hy with rfl | hy'
      · rfl
      · exact absurd hxy (Compare_ne_time g (h.1 y hy'))
    · rcases List.mem_cons.1 hy with rfl | hy'
      · exact absurd hxy.symm (Compare_ne_time g (h.1 x hx'))
      · exact ih h.2 hx' hy'

/-! ## `insert` and `erase` on an ordered registry -/

theorem insert_cons_before (g : TimeHeap) (e x : BaseTimerEvent) (xs : TimerSet)
    (h1 : TimerManager.Compare g e x = true) :
    TimerSet.insert g e (x :: xs) = (e :: x :: xs, true) := by
  simp [TimerSet.insert, h1]

theorem insert_cons_after (g : TimeHeap) (e x : BaseTimerEvent) (xs : TimerSet)
    (h1 : TimerManager.Compare g e x = false) (h2 : TimerManager.Compare g x e = true) :
    TimerSet.insert g e (x :: xs) =
      (x :: (TimerSet.insert g e xs).1, (TimerSet.insert g e xs).2) := by
  simp [TimerSet.insert, h1, h2]

theorem insert_cons_equiv (g : TimeHeap) (e x : BaseTimerEvent) (xs : TimerSet)
    (h1 : TimerManager.Compare g e x = false) (h2 : TimerManager.Compare g x e = false) :
    TimerSet.insert g e (x :: xs) = (x :: xs, false) := by
  simp [TimerSet.insert, h1, h2]

theorem insert_false_eq (g : TimeHeap) (e : BaseTimerEvent) (s : TimerSet)
    (h : (TimerSet.insert g e s).2 = false) : (TimerSet.insert g e s).1 = s := by
  induction s with
  | nil => simp [TimerSet.insert] at h
  | cons x xs ih =>
    cases h1 : TimerManager.Compare g e x
    · cases h2 : TimerManager.Compare g x e
      · rw [insert_cons_equiv g e x xs h1 h2]
      · rw [insert_cons_after g e x xs h1 h2] at h ⊢
        simp only at h ⊢
        rw [ih h]
    · rw [insert_cons_before g e x xs h1] at h
      simp at h

theorem mem_insert_iff (g : TimeHeap) (e x : BaseTimerEvent) (s : TimerSet) :
    x ∈ (TimerSet.insert g e s).1 ↔ x ∈ s ∨ (x = e ∧ (TimerSet.insert g e s).2 = true) := by
  induction s with
  | nil => simp [TimerSet.insert]
  | cons y ys ih =>
    cases h1 : TimerManager.Compare g e y
    · cases h2 : TimerManager.Compare g y e
      · rw [insert_cons_equiv g e y ys h1 h2]
        simp
      · rw [insert_cons_after g e y ys h1 h2]
        simp only [List.mem_cons, ih]
        tauto
    · rw [insert_cons_before g e y ys h1]
      simp only [List.mem_cons]
      tauto

/-- On an ordered registry `insert` is refused exactly when a tracked event has
the deadline of the new one. -/
theorem insert_false_iff (g : TimeHeap) (e : BaseTimerEvent) (s : TimerSet) (hs : Ordered g s) :
    (TimerSet.insert g e s).2 = false ↔ ∃ x ∈ s, g x = g e := by
  induction s with
  | nil => simp [TimerSet.insert]
  | cons y ys ih =>
    unfold Ordered at hs
    rw [List.pairwise_cons] at hs
    cases h1 : TimerManager.Compare g e y
    · cases h2 : TimerManager.Compare g y e
      · rw [insert_cons_equiv g e y ys h1 h2]
        refine ⟨fun _ => ⟨y, List.mem_cons_self _ _, ?_⟩, fun _ => rfl⟩
        rw [← equiv_iff]
        simp [TimerSet.equiv, h1, h2]
      · rw [insert_cons_after g e y ys h1 h2]
        simp only [ih hs.2]
        constructor
        · rintro ⟨x, hx, hxe⟩
          exact ⟨x, List.mem_cons_of_mem _ hx, hxe⟩
        · rintro ⟨x, hx, hxe⟩
          rcases List.mem_cons.1 hx with rfl | hx'
          · exact absurd hxe (Compare_ne_time g h2)
          · exact ⟨x, hx', hxe⟩
    · rw [insert_cons_before g e y ys h1]
      constructor
      · intro h; cases h
      · rintro ⟨x, hx, hxe⟩
        exfalso
        rcases List.mem_cons.1 hx with rfl | hx'
        · exact Compare_ne_time g h1 hxe.symm
        · have := Compare_trans g h1 (hs.1 x hx')
          exact Compare_ne_time g this hxe.symm

theorem insert_ordered (g : TimeHeap) (e : BaseTimerEvent) (s : TimerSet) (hs : Ordered g s) :
    Ordered g (TimerSet.insert g e s).1 := by
  induction s with
  | nil => simp [TimerSet.insert, Ordered]
  | cons y ys ih =>
    have hs' := hs
    unfold Ordered at hs'
    rw [List.pairwise_cons] at hs'
    cases h1 : TimerManager.Compare g e y
    · cases h2 : TimerManager.Compare g y e
      · rw [insert_cons_equiv g e y ys h1 h2]
        exact hs
      · rw [insert_cons_after g e y ys h1 h2]
        unfold Ordered
        simp only
        rw [List.pairwise_cons]
        refine ⟨?_, ih hs'.2⟩
        intro x hx
        rcases (mem_insert_iff g e x ys).1 hx with hx' | ⟨rfl, _⟩
        · exact hs'.1 x hx'
        · exact h2
    · rw [insert_cons_before g e y ys h1]
      unfold Ordered
      simp only
      rw [List.pairwise_cons]
      refine ⟨?_, hs⟩
      intro x hx
      rcases List.mem_cons.1 hx with rfl | hx'
      · exact h1
      · exact Compare_trans g h1 (hs'.1 x hx')

theorem erase_ordered (g : TimeHeap) (e : BaseTimerEvent) (s : TimerSet) (hs : Ordered g s) :
    Ordered g (TimerSet.erase g e s).1 := by
  unfold TimerSet.erase Ordered
  exact List.Pairwise.filter _ hs

theorem mem_erase_iff (g : TimeHeap) (e x : BaseTimerEvent) (s : TimerSet) :
    x ∈ (TimerSet.erase g e s).1 ↔ x ∈ s ∧ g x ≠ g e := by
  unfold TimerSet.erase
  simp only [List.mem_filter, ne_eq]
  rw [← equiv_iff]
  simp

/-- On an ordered registry `erase(key)` removes one element when a tracked event
has the deadline of the key, and none otherwise. -/
theorem erase_count (g : TimeHeap) (e : BaseTimerEvent) (s : TimerSet) (hs : Ordered g s) :
    (TimerSet.erase g e s).2 = if ∃ x ∈ s, g x = g e then 1 else 0 := by
  induction s with
  | nil => simp [TimerSet.erase]
  | cons y ys ih =>
    have hs' := hs
    unfold Ordered at hs'
    rw [List.pairwise_cons] at hs'
    have ih' := ih hs'.2
    unfold TimerSet.erase at ih' ⊢
    simp only at ih' ⊢
    by_cases hy : g y = g e
    · have hnone : ¬ ∃ x ∈ ys, g x = g e := by
        rintro ⟨x, hx, hxe⟩
        exact Compare_ne_time g (hs'.1 x hx) (hy.trans hxe.symm)
      have hyq : TimerSet.equiv g y e = true := (equiv_iff g y e).2 hy
      rw [List.filter_cons, if_pos hyq, List.length_cons, ih', if_neg hnone, if_pos]
      exact ⟨y, List.mem_cons_self _ _, hy⟩
    · have hyq : ¬ TimerSet.equiv g y e = true := fun h => hy ((equiv_iff g y e).1 h)
      rw [List.filter_cons, if_neg hyq, ih']
      have : (∃ x ∈ y :: ys, g x = g e) ↔ ∃ x ∈ ys, g x = g e := by
        constructor
        · rintro ⟨x, hx, hxe⟩
          rcases List.mem_cons.1 hx with rfl | hx'
          · exact absurd hxe hy
          · exact ⟨x, hx', hxe⟩
        · rintro ⟨x, hx, hxe⟩
          exact ⟨x, List.mem_cons_of_mem _ hx, hxe⟩
      simp only [this]

theorem erase_eq_self (g : TimeHeap) (e : BaseTimerEvent) (s : TimerSet)
    (h : ¬ ∃ x ∈ s, g x = g e) : (TimerSet.erase g e s).1 = s := by
  unfold TimerSet.erase
  simp only
  rw [List.filter_eq_self]
  intro x hx
  cases hq : TimerSet.equiv g x e
  · rfl
  · exact absurd ⟨x, hx, (equiv_iff g x e).1 hq⟩ h

theorem apply_ordered (g : TimeHeap) (s : TimerSet) (op : TimerOp) (hs : Ordered g s) :
    Ordered g (TimerOp.apply g s op) := by
  cases op with
  | add e => exact insert_ordered g e s hs
  | delete e => exact erase_ordered g e s hs
  | update e => exact insert_ordered g e _ (erase_ordered g e s hs)

/-- Every sequence of registry calls keeps the container invariant. -/
theorem runOps_ordered (g : TimeHeap) (ops : List TimerOp) (s : TimerSet) (hs : Ordered g s) :
    Ordered g (runOps g ops s) := by
  induction ops generalizing s with
  | nil => exact hs
  | cons op ops ih => exact ih _ (apply_ordered g s op hs)

/-! ## The timer registry calls -/

/-- A tracked event is refused by `AddEvent`, which leaves the registry as it is. -/
theorem AddEvent_tracked_refused (g : TimeHeap) (s : TimerSet) (e : BaseTimerEvent)
    (hs : Ordered g s) (he : e ∈ s) : TimerManager.AddEvent g e s = (s, 1) := by
  have hfalse : (TimerSet.insert g e s).2 = false :=
    (insert_false_iff g e s hs).2 ⟨e, he, rfl⟩
  have heq := insert_false_eq g e s hfalse
  unfold TimerManager.AddEvent
  simp [hfalse, heq]

/-- A call that keeps the deadline of `e` keeps `e` tracked. -/
theorem apply_keeps_mem (g : TimeHeap) (e : BaseTimerEvent) (s : TimerSet) (op : TimerOp)
    (hop : op.keeps g e) (he : e ∈ s) : e ∈ TimerOp.apply g s op := by
  cases op with
  | add x => exact (mem_insert_iff g x e s).2 (Or.inl he)
  | delete x => exact (mem_erase_iff g x e s).2 ⟨he, fun h => hop h.symm⟩
  | update x =>
    exact (mem_insert_iff g x e _).2
      (Or.inl ((mem_erase_iff g x e s).2 ⟨he, fun h => hop h.symm⟩))

theorem runOps_keeps_mem (g : TimeHeap) (e : BaseTimerEvent) (ops : List TimerOp)
    (hops : ∀ op ∈ ops, op.keeps g e) (s : TimerSet) (he : e ∈ s) :
    e ∈ runOps g ops s := by
  induction ops generalizing s with
  | nil => exact he
  | cons op ops ih =>
    exact ih (fun o ho => hops o (List.mem_cons_of_mem _ ho)) _
      (apply_keeps_mem g e s op (hops op (List.mem_cons_self _ _)) he)

/-- C3, as the claim states it, fails: event 1 is inserted, `DeleteEvent` is
called on event 2, another event that has the same deadline and is not tracked,
and the second `AddEvent` of event 1 returns 0.  The call on event 2 returned 0
and removed event 1.  The sequence and the tree give the same result. -/
theorem TimerManager.AddEvent_again_after_other_delete :
    TimerManager.AddEvent heapSame 1 [] = ([1], 0) ∧
    TimerManager.DeleteEvent heapSame 2 [1] = ([], 0) ∧
    TimerManager.AddEvent heapSame 1
        (runOps heapSame [TimerOp.delete 2] (TimerManager.AddEvent heapSame 1 []).1) =
      ([1], 0) ∧
    (Rb.TimerManager.AddEvent heapSame 1
        (Rb.TimerManager.DeleteEvent heapSame 2
          (Rb.TimerManager.AddEvent heapSame 1 .nil).1).1).2 = 0 := by
  decide

/-- C3, amended: on a registry in deadline order, when `AddEvent(e)` succeeded
and no later call was a `DeleteEvent` or `UpdateEvent` of an event with the
deadline of `e` (inserts are free, and so are removals and updates of events with
other deadlines), `e` is still tracked, a second `AddEvent(e)` returns 1 and
leaves the registry as it is, and the registry holds exactly one entry for `e`. -/
theorem TimerManager.AddEvent_twice_rejected (g : TimeHeap) (s : TimerSet) (e : BaseTimerEvent)
    (ops : List TimerOp) (hs : Ordered g s)
    (hadd : (TimerManager.AddEvent g e s).2 = 0)
    (hops : ∀ op ∈ ops, op.keeps g e) :
    e ∈ runOps g ops (TimerManager.AddEvent g e s).1 ∧
    TimerManager.AddEvent g e (runOps g ops (TimerManager.AddEvent g e s).1) =
      (runOps g ops (TimerManager.AddEvent g e s).1, 1) ∧
    (runOps g ops (TimerManager.AddEvent g e s).1).count e = 1 := by
  have hmem0 : e ∈ (TimerManager.AddEvent g e s).1 := by
    refine (mem_insert_iff g e e s).2 (Or.inr ⟨rfl, ?_⟩)
    unfold TimerManager.AddEvent at hadd
    cases hi : (TimerSet.insert g e s).2
    · simp [hi] at hadd
    · rfl
  have hmem : e ∈ runOps g ops (TimerManager.AddEvent g e s).1 :=
    runOps_keeps_mem g e ops hops _ hmem0
  have hord : Ordered g (runOps g ops (TimerManager.AddEvent g e s).1) :=
    runOps_ordered g ops _ (insert_ordered g e s hs)
  exact ⟨hmem, AddEvent_tracked_refused g _ e hord hmem,
    List.count_eq_one_of_mem hord.nodup hmem⟩

/-- Event 5 is inserted next to event 4; then event 3 is inserted, 7 inserted,
3 removed and 4 rescheduled; the second insert of event 5 is refused. -/
theorem TimerManager.AddEvent_twice_rejected_witness :
    Ordered heapDistinct [4] ∧
    (TimerManager.AddEvent heapDistinct 5 [4]).2 = 0 ∧
    TimerManager.AddEvent heapDistinct 5
        (runOps heapDistinct
          [TimerOp.add 3, TimerOp.add 7, TimerOp.delete 3, TimerOp.update 4]
          (TimerManager.AddEvent heapDistinct 5 [4]).1) =
      (runOps heapDistinct
          [TimerOp.add 3, TimerOp.add 7, TimerOp.delete 3, TimerOp.update 4]
          (TimerManager.AddEvent heapDistinct 5 [4]).1, 1) :=
  ⟨by unfold Ordered; decide, by decide,
    (TimerManager.AddEvent_twice_rejected heapDistinct [4] 5
      [TimerOp.add 3, TimerOp.add 7, TimerOp.delete 3, TimerOp.update 4]
      (by unfold Ordered; decide) (by decide)
      (by
        intro op hop
        simp only [List.mem_cons, List.mem_singleton, List.not_mem_nil, or_false] at hop
        rcases hop with rfl | rfl | rfl | rfl
        · trivial
        · trivial
        · show heapDistinct 3 ≠ heapDistinct 5
          decide
        · show heapDistinct 4 ≠ heapDistinct 5
          decide)).2.1⟩

/-- C4, as the claim states it, fails: with event 1 tracked and event 2 (a
different event with the same deadline) not tracked, `DeleteEvent(2)` returns 0
and removes event 1. -/
theorem TimerManager.DeleteEvent_removes_other :
    (TimerManager.AddEvent heapSame 1 []).1 = [1] ∧
    (2 : BaseTimerEvent) ∉ (TimerManager.AddEvent heapSame 1 []).1 ∧
    TimerManager.DeleteEvent heapSame 2 (TimerManager.AddEvent heapSame 1 []).1 = ([], 0) := by
  decide

/-- C4, amended: on a registry in deadline order `DeleteEvent(e)` returns 0 iff
some tracked event has the deadline of `e`; the events tracked afterwards are the
tracked events with another deadline; when `e` itself was tracked it is the one
removed and every other tracked event stays; when no tracked event has the
deadline of `e` the call returns 1 and the registry is unchanged. -/
theorem TimerManager.DeleteEvent_by_deadline (g : TimeHeap) (s : TimerSet) (e : BaseTimerEvent)
    (hs : Ordered g s) :
    ((TimerManager.DeleteEvent g e s).2 = 0 ↔ ∃ x ∈ s, g x = g e) ∧
    (∀ x, x ∈ (TimerManager.DeleteEvent g e s).1 ↔ x ∈ s ∧ g x ≠ g e) ∧
    (e ∈ s → (TimerManager.DeleteEvent g e s).2 = 0 ∧ e ∉ (TimerManager.DeleteEvent g e s).1 ∧
      ∀ x ∈ s, x ≠ e → x ∈ (TimerManager.DeleteEvent g e s).1) ∧
    ((¬ ∃ x ∈ s, g x = g e) → TimerManager.DeleteEvent g e s = (s, 1)) := by
  have hcount := erase_count g e s hs
  have hret : (TimerManager.DeleteEvent g e s).2 = 0 ↔ ∃ x ∈ s, g x = g e := by
    unfold TimerManager.DeleteEvent
    simp only [hcount]
    by_cases h : ∃ x ∈ s, g x = g e
    · simp [h]
    · simp [h]
  have hmem : ∀ x, x ∈ (TimerManager.DeleteEvent g e s).1 ↔ x ∈ s ∧ g x ≠ g e :=
    fun x => mem_erase_iff g e x s
  refine ⟨hret, hmem, ?_, ?_⟩
  · intro he
    refine ⟨hret.2 ⟨e, he, rfl⟩, fun h => ((hmem e).1 h).2 rfl, ?_⟩
    intro x hx hne
    exact (hmem x).2 ⟨hx, fun h => hne (hs.eq_of_time_eq hx he h)⟩
  · intro hnone
    unfold TimerManager.DeleteEvent
    simp only [hcount, erase_eq_self g e s hnone, if_neg hnone]
    rfl

/-- The registry of events 3, 5, 7 with different deadlines and the removal of 5. -/
theorem TimerManager.DeleteEvent_by_deadline_witness :
    Ordered heapDistinct [3, 5, 7] ∧
    ((TimerManager.DeleteEvent heapDistinct 5 [3, 5, 7]).2 = 0 ↔
      ∃ x ∈ ([3, 5, 7] : TimerSet), heapDistinct x = heapDistinct 5) :=
  ⟨by unfold Ordered; decide,
    (TimerManager.DeleteEvent_by_deadline heapDistinct [3, 5, 7] 5
      (by unfold Ordered; decide)).1⟩

/-- With event 1 tracked and event 2 (a different event with the same deadline)
not tracked, `UpdateEvent(2)` returns 0 and event 1 is no longer tracked: the
erase step removes the tracked event that has the deadline of the argument. -/
theorem TimerManager.UpdateEvent_drops_other :
    (TimerManager.AddEvent heapSame 1 []).1 = [1] ∧
    TimerManager.UpdateEvent heapSame 2 (TimerManager.AddEvent heapSame 1 []).1 = ([2], 0) ∧
    (1 : BaseTimerEvent) ∉ (TimerManager.UpdateEvent heapSame 2 (TimerManager.AddEvent heapSame 1 []).1).1 := by
  decide

/-- On a registry that is in deadline order under the current deadlines
`UpdateEvent(e)` returns 0; afterwards the registry is in deadline order, `e` is
tracked exactly once, and the other tracked events are the previously tracked
events whose deadline differs from the deadline of `e`. -/
theorem TimerManager.UpdateEvent_by_deadline (g : TimeHeap) (s : TimerSet) (e : BaseTimerEvent)
    (hs : Ordered g s) :
    (TimerManager.UpdateEvent g e s).2 = 0 ∧
    Ordered g (TimerManager.UpdateEvent g e s).1 ∧
    (TimerManager.UpdateEvent g e s).1.count e = 1 ∧
    (∀ x, x ≠ e → (x ∈ (TimerManager.UpdateEvent g e s).1 ↔ x ∈ s ∧ g x ≠ g e)) := by
  have hord1 : Ordered g (TimerSet.erase g e s).1 := erase_ordered g e s hs
  have htrue : (TimerSet.insert g e (TimerSet.erase g e s).1).2 = true := by
    cases hi : (TimerSet.insert g e (TimerSet.erase g e s).1).2
    · obtain ⟨x, hx, hxe⟩ := (insert_false_iff g e _ hord1).1 hi
      exact absurd hxe ((mem_erase_iff g e x s).1 hx).2
    · rfl
  have hord2 : Ordered g (TimerManager.UpdateEvent g e s).1 := insert_ordered g e _ hord1
  have hmem : e ∈ (TimerManager.UpdateEvent g e s).1 :=
    (mem_insert_iff g e e _).2 (Or.inr ⟨rfl, htrue⟩)
  refine ⟨?_, hord2, List.count_eq_one_of_mem hord2.nodup hmem, ?_⟩
  · unfold TimerManager.UpdateEvent
    simp [htrue]
  · intro x hne
    have h1 := mem_insert_iff g e x (TimerSet.erase g e s).1
    have h2 := mem_erase_iff g e x s
    unfold TimerManager.UpdateEvent
    simp only
    rw [h1, h2]
    constructor
    · rintro (h | ⟨h, _⟩)
      · exact h
      · exact absurd h hne
    · intro h
      exact Or.inl h

/-- The registry of events 3, 5, 7 with different deadlines and the update of the
untracked event 4. -/
theorem TimerManager.UpdateEvent_by_deadline_witness :
    Ordered heapDistinct [3, 5, 7] ∧
    (TimerManager.UpdateEvent heapDistinct 4 [3, 5, 7]).2 = 0 ∧
    Ordered heapDistinct (TimerManager.UpdateEvent heapDistinct 4 [3, 5, 7]).1 :=
  ⟨by unfold Ordered; decide,
    (TimerManager.UpdateEvent_by_deadline heapDistinct [3, 5, 7] 4
      (by unfold Ordered; decide)).1,
    (TimerManager.UpdateEvent_by_deadline heapDistinct [3, 5, 7] 4
      (by unfold Ordered; decide)).2.1⟩

/-! ## The timeout pass -/

theorem loop_nil {σ : Type} (P : BaseTimerEvent → World σ → World σ) (now : timeval)
    (fuel : Nat) (w : World σ) (n : Int) (fired : List BaseTimerEvent)
    (hw : w.timers_ = []) :
    EventLoop.DoTimeout.loop P now (fuel + 1) w n fired = some ⟨n, w, fired⟩ := by
  rw [EventLoop.DoTimeout.loop]
  simp [hw]

theorem loop_notdue {σ : Type} (P : BaseTimerEvent → World σ → World σ) (now : timeval)
    (fuel : Nat) (w : World σ) (n : Int) (fired : List BaseTimerEvent)
    (e : BaseTimerEvent) (rest : TimerSet)
    (hw : w.timers_ = e :: rest) (hd : due now (w.GetTime e) = false) :
    EventLoop.DoTimeout.loop P now (fuel + 1) w n fired = some ⟨n, w, fired⟩ := by
  rw [EventLoop.DoTimeout.loop]
  simp [hw, hd]

theorem loop_due {σ : Type} (P : BaseTimerEvent → World σ → World σ) (now : timeval)
    (fuel : Nat) (w : World σ) (n : Int) (fired : List BaseTimerEvent)
    (e : BaseTimerEvent) (rest : TimerSet)
    (hw : w.timers_ = e :: rest) (hd : due now (w.GetTime e) = true) :
    EventLoop.DoTimeout.loop P now (fuel + 1) w n fired =
      EventLoop.DoTimeout.loop P now fuel (popFire P w e) (n + 1) (fired ++ [e]) := by
  rw [EventLoop.DoTimeout.loop]
  simp [hw, hd, popFire]

/-- In an ordered registry whose first event is not due, no event is due. -/
theorem dueList_eq_nil_of_head {σ : Type} (now : timeval) (w : World σ)
    (e : BaseTimerEvent) (rest : TimerSet) (hw : w.timers_ = e :: rest)
    (hord : Ordered w.GetTime w.timers_) (hd : due now (w.GetTime e) = false) :
    dueList now w = [] := by
  unfold dueList
  rw [List.filter_eq_nil_iff]
  intro x hx hxd
  rw [hw] at hx hord
  unfold Ordered at hord
  rw [List.pairwise_cons] at hord
  rcases List.mem_cons.1 hx with rfl | hx'
  · rw [hd] at hxd; cases hxd
  · have := due_of_Compare w.GetTime now (hord.1 x hx') hxd
    rw [hd] at this; cases this

/-- The pass under an invariant `I` of the worlds met at the loop head: when `I`
gives the deadline order, and popping and firing a due head keeps `I` and leaves
the due events of the tail as they are, the loop leaves after one iteration per
due event, having fired the due events in order. -/
theorem loop_spec {σ : Type} (P : BaseTimerEvent → World σ → World σ) (now : timeval)
    (I : World σ → Prop)
    (hord : ∀ w, I w → Ordered w.GetTime w.timers_)
    (hstep : ∀ w e rest, I w → w.timers_ = e :: rest → due now (w.GetTime e) = true →
      I (popFire P w e) ∧
      dueList now (popFire P w e) = rest.filter (fun x => due now (w.GetTime x))) :
    ∀ (d : List BaseTimerEvent) (w : World σ) (n : Int) (fired : List BaseTimerEvent)
      (fuel : Nat), I w → dueList now w = d → d.length < fuel →
      ∃ w', EventLoop.DoTimeout.loop P now fuel w n fired =
          some ⟨n + d.length, w', fired ++ d⟩ ∧
        I w' ∧ dueList now w' = [] ∧ w' = d.foldl (popFire P) w := by
  intro d
  induction d with
  | nil =>
    intro w n fired fuel hI hd hfuel
    obtain ⟨k, rfl⟩ : ∃ k, fuel = k + 1 := ⟨fuel - 1, by simp at hfuel; omega⟩
    refine ⟨w, ?_, hI, hd, rfl⟩
    cases hw : w.timers_ with
    | nil => simp [loop_nil P now k w n fired hw]
    | cons e rest =>
      cases hdue : due now (w.GetTime e)
      · simp [loop_notdue P now k w n fired e rest hw hdue]
      · exfalso
        unfold dueList at hd
        rw [hw, List.filter_cons, if_pos hdue] at hd
        cases hd
  | cons a d ih =>
    intro w n fired fuel hI hd hfuel
    obtain ⟨k, rfl⟩ : ∃ k, fuel = k + 1 := ⟨fuel - 1, by simp at hfuel; omega⟩
    cases hw : w.timers_ with
    | nil =>
      exfalso
      unfold dueList at hd
      rw [hw] at hd
      cases hd
    | cons e rest =>
      cases hdue : due now (w.GetTime e)
      · exfalso
        rw [dueList_eq_nil_of_head now w e rest hw (hord w hI) hdue] at hd
        cases hd
      · have hd' := hd
        unfold dueList at hd'
        rw [hw, List.filter_cons, if_pos hdue] at hd'
        injection hd' with hea hrest
        subst hea
        obtain ⟨hI1, hdue1⟩ := hstep w e rest hI hw hdue
        rw [hrest] at hdue1
        obtain ⟨w', hrun, hI', hnil, hfold⟩ :=
          ih (popFire P w e) (n + 1) (fired ++ [e]) k hI1 hdue1
            (by simp at hfuel; omega)
        refine ⟨w', ?_, hI', hnil, ?_⟩
        · rw [loop_due P now k w n fired e rest hw hdue, hrun]
          simp only [List.length_cons, List.append_assoc, List.singleton_append,
            Nat.cast_add, Nat.cast_one]
          congr 2
          ring
        · rw [hfold]
          rfl

theorem Ordered_congr {g g' : TimeHeap} {s : TimerSet} (h : ∀ x ∈ s, g' x = g x)
    (hs : Ordered g s) : Ordered g' s := by
  unfold Ordered at *
  refine List.Pairwise.imp_of_mem ?_ hs
  intro a b ha hb hab
  simpa [TimerManager.Compare, h a ha, h b hb] using hab

theorem Compare_asymm (g : TimeHeap) {a b : BaseTimerEvent}
    (hab : TimerManager.Compare g a b = true) : TimerManager.Compare g b a = false := by
  cases hba : TimerManager.Compare g b a
  · rfl
  · have h := Compare_trans g hab hba
    rw [Compare_irrefl] at h
    cases h

/-- The invariant of the pass when handlers are inert: the registry is in
deadline order for the initial deadlines `g`, the tracked deadlines are still the
initial ones, and the events not due are those of the initial registry `s0`. -/
theorem inert_step {σ : Type} (P : BaseTimerEvent → World σ → World σ) (hP : Inert P)
    (now : timeval) (g : TimeHeap) (s0 : TimerSet) (w : World σ) (e : BaseTimerEvent)
    (rest : TimerSet)
    (hI : Ordered g w.timers_ ∧ (∀ x ∈ w.timers_, w.GetTime x = g x) ∧
      w.timers_.filter (fun x => !due now (g x)) = s0.filter (fun x => !due now (g x)))
    (hw : w.timers_ = e :: rest) (hdue : due now (w.GetTime e) = true) :
    (Ordered g (popFire P w e).timers_ ∧
      (∀ x ∈ (popFire P w e).timers_, (popFire P w e).GetTime x = g x) ∧
      (popFire P w e).timers_.filter (fun x => !due now (g x)) =
        s0.filter (fun x => !due now (g x))) ∧
    dueList now (popFire P w e) = rest.filter (fun x => due now (w.GetTime x)) := by
  obtain ⟨hord, hagree, hkeep⟩ := hI
  have ht : (popFire P w e).timers_ = rest := by
    unfold popFire
    rw [(hP e _).1]
    simp [hw]
  have hg : ∀ x ∈ rest, (popFire P w e).GetTime x = w.GetTime x := by
    intro x hx
    unfold popFire
    exact (hP e _).2 x (by simpa [hw] using hx)
  have hrest_mem : ∀ x ∈ rest, x ∈ w.timers_ := fun x hx => by
    rw [hw]; exact List.mem_cons_of_mem _ hx
  refine ⟨⟨?_, ?_, ?_⟩, ?_⟩
  · rw [ht]
    rw [hw] at hord
    unfold Ordered at hord ⊢
    exact (List.pairwise_cons.1 hord).2
  · rw [ht]
    intro x hx
    rw [hg x hx]
    exact hagree x (hrest_mem x hx)
  · rw [ht, ← hkeep, hw, List.filter_cons]
    have he : due now (g e) = true := by
      rw [← hagree e (by rw [hw]; exact List.mem_cons_self _ _)]
      exact hdue
    simp [he]
  · unfold dueList
    rw [ht]
    apply List.filter_congr
    intro x hx
    rw [hg x hx]

/-- The pass on a registry in deadline order with inert handlers. -/
theorem DoTimeout_inert {σ : Type} (P : BaseTimerEvent → World σ → World σ)
    (hP : Inert P) (w : World σ) (hord0 : Ordered w.GetTime w.timers_) (t : timeval)
    (fuel : Nat) (hfuel : w.timers_.length < fuel) :
    ∃ r, EventLoop.DoTimeout P t fuel w = some r ∧
      r.fired = w.timers_.filter (fun x => due t (w.GetTime x)) ∧
      r.fired.Nodup ∧
      r.fired.Pairwise (fun a b => TimerManager.Compare w.GetTime b a = false) ∧
      r.ret = r.fired.length ∧
      r.world.timers_ = w.timers_.filter (fun x => !due t (w.GetTime x)) := by
  have hlen : (dueList t w).length < fuel :=
    lt_of_le_of_lt (List.length_filter_le _ _) hfuel
  obtain ⟨w', hrun, hI', hnil, _⟩ :=
    loop_spec P t
      (fun v => Ordered w.GetTime v.timers_ ∧ (∀ x ∈ v.timers_, v.GetTime x = w.GetTime x) ∧
        v.timers_.filter (fun x => !due t (w.GetTime x)) =
          w.timers_.filter (fun x => !due t (w.GetTime x)))
      (fun v hv => Ordered_congr hv.2.1 hv.1)
      (fun v e rest hv hvt hdue => inert_step P hP t w.GetTime w.timers_ v e rest hv hvt hdue)
      (dueList t w) w 0 [] fuel ⟨hord0, fun _ _ => rfl, rfl⟩ rfl hlen
  have hfired_ord : Ordered w.GetTime (dueList t w) := by
    unfold dueList Ordered
    exact List.Pairwise.filter _ hord0
  refine ⟨⟨(0 : Int) + (dueList t w).length, w', [] ++ dueList t w⟩, hrun, ?_, ?_, ?_, ?_, ?_⟩
  · simp [dueList]
  · simpa using hfired_ord.nodup
  · simp only [List.nil_append]
    exact List.Pairwise.imp (fun h => Compare_asymm w.GetTime h) hfired_ord
  · simp
  · obtain ⟨_, hagree, hkeep⟩ := hI'
    simp only
    rw [← hkeep]
    symm
    rw [List.filter_eq_self]
    intro x hx
    unfold dueList at hnil
    rw [List.filter_eq_nil_iff] at hnil
    have := hnil x hx
    rw [hagree x hx] at this
    simpa using this

/-- The pass is exact, ordered and duplicate-free as long as no deadline changes
between the registry calls: for every registry reached from the empty one by
`AddEvent` / `DeleteEvent` / `UpdateEvent` calls under one heap and every instant
`t`, when the handlers do not touch the registry, a `DoTimeout` pass with
`now_ = t` returns; it fired exactly the tracked events with deadline `<= t`,
each once, in non-decreasing deadline order, it returns their number, and the
registry is left with exactly the tracked events whose deadline is after `t`. -/
theorem EventLoop.DoTimeout_exact {σ : Type} (P : BaseTimerEvent → World σ → World σ)
    (hP : Inert P) (ops : List TimerOp) (w : World σ)
    (hw : w.timers_ = runOps w.GetTime ops []) (t : timeval) (fuel : Nat)
    (hfuel : w.timers_.length < fuel) :
    ∃ r, EventLoop.DoTimeout P t fuel w = some r ∧
      r.fired = w.timers_.filter (fun x => due t (w.GetTime x)) ∧
      r.fired.Nodup ∧
      r.fired.Pairwise (fun a b => TimerManager.Compare w.GetTime b a = false) ∧
      r.ret = r.fired.length ∧
      r.world.timers_ = w.timers_.filter (fun x => !due t (w.GetTime x)) := by
  have hord0 : Ordered w.GetTime w.timers_ := by
    rw [hw]
    exact runOps_ordered w.GetTime ops [] List.Pairwise.nil
  exact DoTimeout_inert P hP w hord0 t fuel hfuel

/-- The registry of events 3, 5, 7 (due at 3 s, 5 s, 7 s) and a pass at 5 s with a
handler that does nothing: 3 and 5 fire, 7 stays. -/
theorem EventLoop.DoTimeout_exact_witness :
    ∃ r, EventLoop.DoTimeout noopProcess ⟨5, 0⟩ 4
        (⟨[3, 5, 7], heapDistinct, ()⟩ : World Unit) = some r ∧
      r.fired = [3, 5] ∧ r.ret = 2 ∧ r.world.timers_ = [7] := by
  obtain ⟨r, h1, h2, _, _, h5, h6⟩ :=
    EventLoop.DoTimeout_exact noopProcess (fun _ _ => ⟨rfl, fun _ _ => rfl⟩)
      [TimerOp.add 7, TimerOp.add 3, TimerOp.add 5, TimerOp.add 9, TimerOp.delete 9]
      (⟨[3, 5, 7], heapDistinct, ()⟩ : World Unit) (by decide) ⟨5, 0⟩ 4 (by decide)
  refine ⟨r, h1, ?_, ?_, ?_⟩
  · rw [h2]; decide
  · rw [h5, h2]; decide
  · rw [h6]; decide

/-- C2, as the claim states it, fails: with deadlines now + 10 ms, now + 5 ms and
now + 5 ms (now = 100 s) inserted in that order into an empty registry, the third
`AddEvent` returns 1, the registry tracks two events, and the pass at
now + 20 ms fires two events, not three. -/
theorem TimerManager.AddEvent_equal_deadline_refused :
    runOps heapThree [TimerOp.add 1, TimerOp.add 2] [] = [2, 1] ∧
    TimerManager.AddEvent heapThree 3 (runOps heapThree [TimerOp.add 1, TimerOp.add 2] []) =
      ([2, 1], 1) ∧
    (EventLoop.DoTimeout noopProcess ⟨100, 20000⟩ 10
        (⟨[2, 1], heapThree, ()⟩ : World Unit)).map (fun r => (r.ret, r.fired)) =
      some (2, [2, 1]) := by
  decide

/-- C2, amended: for three timer events where the second and third have the same
deadline, earlier than the deadline of the first, inserted in that order into an
empty registry, the first two `AddEvent` calls return 0 and the third returns 1
and changes nothing; the registry tracks the second and the first event, and a
pass at an instant not before the first deadline, with inert handlers, fires
these two, the earlier deadline first, and leaves the registry empty. -/
theorem TimerManager.three_timers {σ : Type} (P : BaseTimerEvent → World σ → World σ)
    (hP : Inert P) (u : σ) (g : TimeHeap) (e1 e2 e3 : BaseTimerEvent) (t : timeval)
    (h21 : TimerManager.Compare g e2 e1 = true) (h32 : g e3 = g e2)
    (hdue : due t (g e1) = true) (fuel : Nat) (hfuel : 2 < fuel) :
    TimerManager.AddEvent g e1 [] = ([e1], 0) ∧
    TimerManager.AddEvent g e2 [e1] = ([e2, e1], 0) ∧
    TimerManager.AddEvent g e3 [e2, e1] = ([e2, e1], 1) ∧
    ∃ r, EventLoop.DoTimeout P t fuel ⟨[e2, e1], g, u⟩ = some r ∧
      r.fired = [e2, e1] ∧ r.ret = 2 ∧ r.world.timers_ = [] := by
  have h32a : TimerManager.Compare g e3 e2 = false := by
    rw [Compare_congr_left g e2 h32, Compare_irrefl]
  have h23a : TimerManager.Compare g e2 e3 = false := by
    rw [Compare_congr_right g e2 h32, Compare_irrefl]
  have hord : Ordered g [e2, e1] := by
    unfold Ordered
    simp [h21]
  have hdue2 : due t (g e2) = true := due_of_Compare g t h21 hdue
  refine ⟨by simp [TimerManager.AddEvent, TimerSet.insert], ?_, ?_, ?_⟩
  · simp [TimerManager.AddEvent, TimerSet.insert, h21]
  · simp [TimerManager.AddEvent, TimerSet.insert, h32a, h23a]
  · obtain ⟨r, hr, hf, _, _, hn, hw⟩ :=
      DoTimeout_inert P hP ⟨[e2, e1], g, u⟩ hord t fuel (by simpa using hfuel)
    refine ⟨r, hr, ?_, ?_, ?_⟩
    · rw [hf]; simp [hdue, hdue2]
    · rw [hn, hf]; simp [hdue, hdue2]
    · rw [hw]; simp [hdue, hdue2]

/-- The three-timer scenario with now = 100 s and the pass at now + 20 ms. -/
theorem TimerManager.three_timers_witness :
    TimerManager.Compare heapThree 2 1 = true ∧ heapThree 3 = heapThree 2 ∧
    due ⟨100, 20000⟩ (heapThree 1) = true ∧
    TimerManager.AddEvent heapThree 3 [2, 1] = ([2, 1], 1) :=
  ⟨by decide, by decide, by decide,
    (TimerManager.three_timers noopProcess (fun _ _ => ⟨rfl, fun _ _ => rfl⟩) () heapThree
      1 2 3 ⟨100, 20000⟩ (by decide) (by decide) (by decide) 3 (by decide)).2.2.1⟩

/-- C7, evaluated: the timeout of `StartLoop` is computed from the absolute
deadline, the current time is not subtracted and nothing clamps the result.  With
one timer due 50 ms after the current time 1000 s the timeout is 100, where the
remaining time is 50; with one timer due 50 ms after 1700000000 s the narrowed
product is negative and so is the timeout. -/
theorem EventLoop.StartLoop_timeout_absolute :
    EventLoop.StartLoop.timeout heapThousand [1] = 100 ∧
    specTimeout ⟨1000, 0⟩ heapThousand [1] = 50 ∧
    EventLoop.StartLoop.timeout heapEpoch [1] = -807049166 ∧
    specTimeout ⟨1700000000, 0⟩ heapEpoch [1] = 50 := by
  decide

/-! ## Descriptor registration and readiness -/

theorem Nat_or_eq_zero (a b : Nat) : a ||| b = 0 ↔ a = 0 ∧ b = 0 := by
  constructor
  · intro h
    have hbit : ∀ i, (a ||| b).testBit i = false := by
      intro i
      rw [h]
      simp
    constructor
    · apply Nat.eq_of_testBit_eq
      intro i
      have := hbit i
      rw [Nat.testBit_or] at this
      simp only [Bool.or_eq_false_iff] at this
      simp [this.1]
    · apply Nat.eq_of_testBit_eq
      intro i
      have := hbit i
      rw [Nat.testBit_or] at this
      simp only [Bool.or_eq_false_iff] at this
      simp [this.2]
  · rintro ⟨rfl, rfl⟩
    simp

theorem Nat_and_or_distrib_right (a b c : Nat) : (a ||| b) &&& c = (a &&& c) ||| (b &&& c) := by
  rw [Nat.and_comm, Nat.and_or_distrib_left, Nat.and_comm c a, Nat.and_comm c b]

/-- With non-zero constants every test `type | CONSTANT` holds, so the flag word
does not depend on the interest mask. -/
theorem AddEvent_ev_events (B : FileEventBits) (hR : B.READ ≠ 0) (hW : B.WRITE ≠ 0)
    (hE : B.ERROR ≠ 0) (e : BaseFileEvent) :
    (EventLoop.AddEvent.ev B e).events =
        EPOLLIN ||| EPOLLOUT ||| (EPOLLHUP ||| EPOLLERR ||| EPOLLRDHUP) ∧
    (EventLoop.UpdateEvent.ev B e).events =
        EPOLLIN ||| EPOLLOUT ||| (EPOLLHUP ||| EPOLLERR ||| EPOLLRDHUP) := by
  have h1 : e.type ||| B.READ ≠ 0 := fun h => hR ((Nat_or_eq_zero _ _).1 h).2
  have h2 : e.type ||| B.WRITE ≠ 0 := fun h => hW ((Nat_or_eq_zero _ _).1 h).2
  have h3 : e.type ||| B.ERROR ≠ 0 := fun h => hE ((Nat_or_eq_zero _ _).1 h).2
  simp [EventLoop.AddEvent.ev, EventLoop.UpdateEvent.ev, h1, h2, h3]

/-- C6, evaluated: with the constants `READ = 1`, `WRITE = 2`, `ERROR = 4` the
flag word handed to the system call is the same for every event, all five flags.
For the interest mask `{WRITE}` it has `EPOLLIN` although `READ` is not in the
mask, and registering with `{READ}` and then updating with `{WRITE}` leaves all
five flags registered, not `EPOLLOUT` alone. -/
theorem EventLoop.AddEvent_flags_ignore_mask :
    (∀ e : BaseFileEvent,
      (EventLoop.AddEvent.ev bits124 e).events = 0x201D ∧
      (EventLoop.UpdateEvent.ev bits124 e).events = 0x201D) ∧
    bits124.isMask 2 ∧ ¬ hasFlag 2 bits124.READ ∧
    hasFlag (EventLoop.AddEvent.ev bits124 ⟨1, 3, 2⟩).events EPOLLIN ∧
    (EventLoop.UpdateEvent bits124 (EventLoop.AddEvent bits124 [] ⟨1, 3, 1⟩).1 ⟨1, 3, 2⟩) =
      ([(3, ⟨0x201D, 1⟩)], 0) := by
  have hall : ∀ e : BaseFileEvent,
      (EventLoop.AddEvent.ev bits124 e).events = 0x201D ∧
      (EventLoop.UpdateEvent.ev bits124 e).events = 0x201D := by
    intro e
    have h := AddEvent_ev_events bits124 (by decide) (by decide) (by decide) e
    have hv : EPOLLIN ||| EPOLLOUT ||| (EPOLLHUP ||| EPOLLERR ||| EPOLLRDHUP) = 0x201D := by
      decide
    rw [hv] at h
    exact h
  refine ⟨hall, by unfold FileEventBits.isMask; decide, by unfold hasFlag; decide, ?_, ?_⟩
  · rw [(hall _).1]
    unfold hasFlag
    decide
  · decide

/-- C10. Readiness translation: with `READ`, `WRITE` and `ERROR` non-zero and
pairwise disjoint, the reason mask built by `ProcessEvents` from a native word
`w` has `READ` iff `w` has `EPOLLIN`, `WRITE` iff `w` has `EPOLLOUT`, `ERROR` iff
`w` has at least one of `EPOLLHUP`, `EPOLLERR`, `EPOLLRDHUP`, and no bit outside
the three constants. -/
theorem EventLoop.ProcessEvents_reason (B : FileEventBits)
    (hR : B.READ ≠ 0) (hW : B.WRITE ≠ 0) (hE : B.ERROR ≠ 0)
    (hRW : B.READ &&& B.WRITE = 0) (hRE : B.READ &&& B.ERROR = 0)
    (hWE : B.WRITE &&& B.ERROR = 0) (w : Nat) :
    (hasFlag (EventLoop.ProcessEvents.reason B w) B.READ ↔ w &&& EPOLLIN ≠ 0) ∧
    (hasFlag (EventLoop.ProcessEvents.reason B w) B.WRITE ↔ w &&& EPOLLOUT ≠ 0) ∧
    (hasFlag (EventLoop.ProcessEvents.reason B w) B.ERROR ↔
      (w &&& EPOLLHUP ≠ 0 ∨ w &&& EPOLLERR ≠ 0 ∨ w &&& EPOLLRDHUP ≠ 0)) ∧
    B.isMask (EventLoop.ProcessEvents.reason B w) := by
  have hWR : B.WRITE &&& B.READ = 0 := by rw [Nat.and_comm]; exact hRW
  have hER : B.ERROR &&& B.READ = 0 := by rw [Nat.and_comm]; exact hRE
  have hEW : B.ERROR &&& B.WRITE = 0 := by rw [Nat.and_comm]; exact hWE
  have hR' : ¬ (0 = B.READ) := fun h => hR h.symm
  have hW' : ¬ (0 = B.WRITE) := fun h => hW h.symm
  have hE' : ¬ (0 = B.ERROR) := fun h => hE h.symm
  have herr : w &&& (EPOLLHUP ||| EPOLLERR ||| EPOLLRDHUP) ≠ 0 ↔
      (w &&& EPOLLHUP ≠ 0 ∨ w &&& EPOLLERR ≠ 0 ∨ w &&& EPOLLRDHUP ≠ 0) := by
    rw [Nat.and_or_distrib_left, Nat.and_or_distrib_left, Ne, Nat_or_eq_zero, Nat_or_eq_zero]
    tauto
  rw [← herr]
  unfold hasFlag FileEventBits.isMask EventLoop.ProcessEvents.reason
  generalize w &&& (EPOLLHUP ||| EPOLLERR ||| EPOLLRDHUP) = c3
  generalize w &&& EPOLLOUT = c2
  generalize w &&& EPOLLIN = c1
  by_cases h1 : c1 = 0 <;> by_cases h2 : c2 = 0 <;> by_cases h3 : c3 = 0 <;>
    simp [h1, h2, h3, Nat_and_or_distrib_right, Nat.and_or_distrib_left, hRW, hRE, hWE,
      hWR, hER, hEW, hR, hW, hE, hR', hW', hE']

/-- The readable and hung-up word `EPOLLIN | EPOLLHUP` gives `READ` and `ERROR`
together, without `WRITE`. -/
theorem EventLoop.ProcessEvents_reason_witness :
    hasFlag (EventLoop.ProcessEvents.reason bits124 (EPOLLIN ||| EPOLLHUP)) bits124.READ ∧
    ¬ hasFlag (EventLoop.ProcessEvents.reason bits124 (EPOLLIN ||| EPOLLHUP)) bits124.WRITE ∧
    hasFlag (EventLoop.ProcessEvents.reason bits124 (EPOLLIN ||| EPOLLHUP)) bits124.ERROR :=
  ⟨(EventLoop.ProcessEvents_reason bits124 (by decide) (by decide) (by decide)
      (by decide) (by decide) (by decide) (EPOLLIN ||| EPOLLHUP)).1.2 (by decide),
    fun h => (EventLoop.ProcessEvents_reason bits124 (by decide) (by decide) (by decide)
      (by decide) (by decide) (by decide) (EPOLLIN ||| EPOLLHUP)).2.1.1 h (by decide),
    (EventLoop.ProcessEvents_reason bits124 (by decide) (by decide) (by decide)
      (by decide) (by decide) (by decide) (EPOLLIN ||| EPOLLHUP)).2.2.1.2
      (Or.inl (by decide))⟩

/-- C8, as the claim states it, fails: `DeleteEvent` on a descriptor that is not
registered returns -1, and so does a second `DeleteEvent` after a successful
first one. -/
theorem EventLoop.DeleteEvent_unregistered_fails :
    EventLoop.DeleteEvent [] ⟨1, 3, 1⟩ = ([], -1) ∧
    (EventLoop.DeleteEvent (EventLoop.AddEvent bits124 [] ⟨1, 3, 1⟩).1 ⟨1, 3, 1⟩).2 = 0 ∧
    (EventLoop.DeleteEvent
      (EventLoop.DeleteEvent (EventLoop.AddEvent bits124 [] ⟨1, 3, 1⟩).1 ⟨1, 3, 1⟩).1
      ⟨1, 3, 1⟩).2 = -1 := by
  decide

/-- C8, amended: `DeleteEvent(BaseFileEvent *)` returns what the removal call
returns: 0 iff the descriptor is registered, and -1 with the interest list
unchanged when it is not; afterwards the descriptor is not registered, so a
second call returns -1 and changes nothing; the registrations of all other
descriptors are as before. -/
theorem EventLoop.DeleteEvent_forwards (interest : EpollSet) (e : BaseFileEvent) :
    ((EventLoop.DeleteEvent interest e).2 = 0 ↔ interest.registered e.file = true) ∧
    (interest.registered e.file = false → EventLoop.DeleteEvent interest e = (interest, -1)) ∧
    (EventLoop.DeleteEvent interest e).1.registered e.file = false ∧
    EventLoop.DeleteEvent (EventLoop.DeleteEvent interest e).1 e =
      ((EventLoop.DeleteEvent interest e).1, -1) ∧
    (∀ p : Int × epoll_event, p.1 ≠ e.file →
      (p ∈ (EventLoop.DeleteEvent interest e).1 ↔ p ∈ interest)) := by
  have hafter : (EventLoop.DeleteEvent interest e).1.registered e.file = false := by
    unfold EventLoop.DeleteEvent epoll_ctl
    cases h : interest.registered e.file
    · simpa using h
    · simp [EpollSet.registered, List.any_filter]
  have hun : ∀ st : EpollSet, st.registered e.file = false →
      EventLoop.DeleteEvent st e = (st, -1) := by
    intro st h
    simp [EventLoop.DeleteEvent, epoll_ctl, h]
  refine ⟨?_, hun interest, hafter, hun _ hafter, ?_⟩
  · unfold EventLoop.DeleteEvent epoll_ctl
    cases h : interest.registered e.file <;> simp
  · intro p hp
    unfold EventLoop.DeleteEvent epoll_ctl
    cases h : interest.registered e.file
    · simp
    · simp [List.mem_filter, hp]

/-! ## The tree and the sequence -/

theorem Rb.toList_setColor (c : Rb.Color) (t : Rb.Tree) : (t.setColor c).toList = t.toList := by
  cases t <;> rfl

theorem Rb.size_eq_length (t : Rb.Tree) : t.size = t.toList.length := by
  induction t with
  | nil => rfl
  | node c l v r ihl ihr =>
    simp only [Rb.Tree.size, Rb.Tree.toList, List.length_append, List.length_cons, ihl, ihr]
    omega

theorem Rb.toList_rotateLeft (t : Rb.Tree) : (Rb.rotateLeft t).toList = t.toList := by
  cases t with
  | nil => rfl
  | node c a x r =>
    cases r with
    | nil => rfl
    | node c' b y d => simp [Rb.rotateLeft, Rb.Tree.toList]

theorem Rb.toList_rotateRight (t : Rb.Tree) : (Rb.rotateRight t).toList = t.toList := by
  cases t with
  | nil => rfl
  | node c l y d =>
    cases l with
    | nil => rfl
    | node c' a x b => simp [Rb.rotateRight, Rb.Tree.toList]

theorem Rb.toList_insertFixLeft (c : Rb.Color) (l : Rb.Tree) (v : BaseTimerEvent)
    (r : Rb.Tree) (st : Rb.InsertState) :
    (Rb.insertFixLeft c l v r st).1.toList = l.toList ++ v :: r.toList := by
  cases st with
  | done => rfl
  | atX =>
    unfold Rb.insertFixLeft
    split_ifs <;> rfl
  | redParent xIsLeft =>
    cases xIsLeft <;> unfold Rb.insertFixLeft <;> split_ifs <;>
      simp [Rb.Tree.toList, Rb.toList_setColor, Rb.toList_rotateRight, Rb.toList_rotateLeft]

theorem Rb.toList_insertFixRight (c : Rb.Color) (l : Rb.Tree) (v : BaseTimerEvent)
    (r : Rb.Tree) (st : Rb.InsertState) :
    (Rb.insertFixRight c l v r st).1.toList = l.toList ++ v :: r.toList := by
  cases st with
  | done => rfl
  | atX =>
    unfold Rb.insertFixRight
    split_ifs <;> rfl
  | redParent xIsLeft =>
    cases xIsLeft <;> unfold Rb.insertFixRight <;> split_ifs <;>
      simp [Rb.Tree.toList, Rb.toList_setColor, Rb.toList_rotateRight, Rb.toList_rotateLeft]

theorem Rb.toList_unlink (c : Rb.Color) (x : Rb.Tree) : (Rb.unlink c x).1.toList = x.toList := by
  unfold Rb.unlink
  split_ifs <;> simp [Rb.toList_setColor]

theorem Rb.toList_blackSiblingLeft (c : Rb.Color) (l : Rb.Tree) (v : BaseTimerEvent)
    (w : Rb.Tree) : (Rb.blackSiblingLeft c l v w).1.toList = l.toList ++ v :: w.toList := by
  cases w with
  | nil => rfl
  | node wc wl wv wr =>
    unfold Rb.blackSiblingLeft
    by_cases h : (!wl.isRed && !wr.isRed) = true
    · simp [h, Rb.Tree.toList]
    · simp only [h, if_false]
      generalize hX : (if (!wr.isRed) = true then
          Rb.rotateRight (.node .red (wl.setColor .black) wv wr)
        else Rb.Tree.node wc wl wv wr) = X
      have hXl : X.toList = wl.toList ++ wv :: wr.toList := by
        rw [← hX]
        split_ifs <;> simp [Rb.Tree.toList, Rb.toList_setColor, Rb.toList_rotateRight]
      cases X with
      | nil => simp [Rb.Tree.toList] at hXl
      | node xc xl xv xr =>
        simp only [Rb.Tree.toList, Rb.toList_setColor] at hXl ⊢
        rw [← hXl]
        simp

theorem Rb.toList_blackSiblingRight (c : Rb.Color) (v : BaseTimerEvent) (r : Rb.Tree)
    (w : Rb.Tree) : (Rb.blackSiblingRight c v r w).1.toList = w.toList ++ v :: r.toList := by
  cases w with
  | nil => rfl
  | node wc wl wv wr =>
    unfold Rb.blackSiblingRight
    by_cases h : (!wr.isRed && !wl.isRed) = true
    · simp [h, Rb.Tree.toList]
    · simp only [h, if_false]
      generalize hX : (if (!wl.isRed) = true then
          Rb.rotateLeft (.node .red wl wv (wr.setColor .black))
        else Rb.Tree.node wc wl wv wr) = X
      have hXl : X.toList = wl.toList ++ wv :: wr.toList := by
        rw [← hX]
        split_ifs <;> simp [Rb.Tree.toList, Rb.toList_setColor, Rb.toList_rotateLeft]
      cases X with
      | nil => simp [Rb.Tree.toList] at hXl
      | node xc xl xv xr =>
        simp only [Rb.Tree.toList, Rb.toList_setColor] at hXl ⊢
        rw [← hXl]
        simp

theorem Rb.toList_fixDeficitLeft (c : Rb.Color) (l : Rb.Tree) (v : BaseTimerEvent)
    (r : Rb.Tree) : (Rb.fixDeficitLeft c l v r).1.toList = l.toList ++ v :: r.toList := by
  unfold Rb.fixDeficitLeft
  split
  · simp [Rb.Tree.toList, Rb.toList_blackSiblingLeft]
  · exact Rb.toList_blackSiblingLeft c l v r

theorem Rb.toList_fixDeficitRight (c : Rb.Color) (l : Rb.Tree) (v : BaseTimerEvent)
    (r : Rb.Tree) : (Rb.fixDeficitRight c l v r).1.toList = l.toList ++ v :: r.toList := by
  unfold Rb.fixDeficitRight
  split
  · simp [Rb.Tree.toList, Rb.toList_blackSiblingRight]
  · exact Rb.toList_blackSiblingRight c v r l

theorem Rb.eraseMin_none (t : Rb.Tree) (h : Rb.eraseMin t = none) : t = .nil := by
  cases t with
  | nil => rfl
  | node c l v r =>
    unfold Rb.eraseMin at h
    split at h <;> cases h

theorem Rb.eraseMin_some (t : Rb.Tree) (m : BaseTimerEvent) (t' : Rb.Tree) (d : Bool)
    (h : Rb.eraseMin t = some (m, t', d)) : t.toList = m :: t'.toList := by
  induction t generalizing m t' d with
  | nil => cases h
  | node c l v r ihl _ =>
    unfold Rb.eraseMin at h
    split at h
    · rename_i hl
      have := Rb.eraseMin_none l hl
      subst this
      injection h with h
      injection h with h1 h2
      subst h1
      have : t' = (Rb.unlink c r).1 := by rw [h2]
      rw [this, Rb.toList_unlink]
      rfl
    · rename_i m' l' d' hl
      have hl' := ihl m' l' d' hl
      injection h with h
      injection h with h1 h2
      subst h1
      have : t' = (if d' = true then Rb.fixDeficitLeft c l' v r
          else (Rb.Tree.node c l' v r, false)).1 := by rw [h2]
      rw [this]
      simp only [Rb.Tree.toList, hl']
      split_ifs <;> simp [Rb.Tree.toList, Rb.toList_fixDeficitLeft]

/-- Erasing the node at position `i` removes the element at position `i` of the
iteration order and leaves the others in place, whatever the repair does. -/
theorem Rb.toList_eraseAt (t : Rb.Tree) (i : Nat) :
    (Rb.eraseAt t i).1.toList = t.toList.eraseIdx i := by
  induction t generalizing i with
  | nil => rfl
  | node c l v r ihl ihr =>
    have hsz := Rb.size_eq_length l
    unfold Rb.eraseAt
    by_cases h1 : i < l.size
    · simp only [h1, if_true]
      have hres : (if (Rb.eraseAt l i).2 = true then Rb.fixDeficitLeft c (Rb.eraseAt l i).1 v r
          else (Rb.Tree.node c (Rb.eraseAt l i).1 v r, false)).1.toList =
          (Rb.eraseAt l i).1.toList ++ v :: r.toList := by
        split_ifs <;> simp [Rb.Tree.toList, Rb.toList_fixDeficitLeft]
      rw [hres, ihl, Rb.Tree.toList]
      rw [List.eraseIdx_append_of_lt_length (by omega)]
    · simp only [h1, if_false]
      by_cases h2 : i = l.size
      · simp only [h2, if_true]
        have hgoal : (l.toList ++ v :: r.toList).eraseIdx l.size = l.toList ++ r.toList := by
          rw [List.eraseIdx_append_of_length_le (by omega), hsz]
          simp
        rw [Rb.Tree.toList, hgoal]
        cases l with
        | nil => simp [Rb.toList_unlink, Rb.Tree.toList]
        | node lc ll lv lr =>
          cases r with
          | nil => simp [Rb.toList_unlink, Rb.Tree.toList]
          | node rc rl rv rr =>
            simp only
            cases hm : Rb.eraseMin (Rb.Tree.node rc rl rv rr) with
            | none =>
              have := Rb.eraseMin_none _ hm
              cases this
            | some p =>
              obtain ⟨m, r', d⟩ := p
              have hr := Rb.eraseMin_some _ m r' d hm
              simp only
              rw [hr]
              split_ifs <;> simp [Rb.Tree.toList, Rb.toList_fixDeficitRight]
      · simp only [h2, if_false]
        have hres : (if (Rb.eraseAt r (i - l.size - 1)).2 = true then
            Rb.fixDeficitRight c l v (Rb.eraseAt r (i - l.size - 1)).1
          else (Rb.Tree.node c l v (Rb.eraseAt r (i - l.size - 1)).1, false)).1.toList =
          l.toList ++ v :: (Rb.eraseAt r (i - l.size - 1)).1.toList := by
          split_ifs <;> simp [Rb.Tree.toList, Rb.toList_fixDeficitRight]
        rw [hres, ihr, Rb.Tree.toList]
        rw [List.eraseIdx_append_of_length_le (by omega)]
        have : i - l.toList.length = (i - l.size - 1) + 1 := by omega
        rw [this]
        rfl

theorem Rb.toList_erasePosition (t : Rb.Tree) (i : Nat) :
    (Rb.erasePosition t i).toList = t.toList.eraseIdx i := by
  unfold Rb.erasePosition
  split_ifs <;> simp [Rb.toList_setColor, Rb.toList_eraseAt]

/-- The iterator `begin()` is at the head of the sequence and `erase(begin())`
leaves its tail, in every tree: the view that `EventLoop::DoTimeout` has of
`timers_` is the sequence. -/
theorem Rb.toList_erase_begin (t : Rb.Tree) :
    (Rb.erasePosition t 0).toList = t.toList.tail := by
  rw [Rb.toList_erasePosition, List.eraseIdx_zero]

theorem Compare_total (g : TimeHeap) {a b : BaseTimerEvent} (hne : g a ≠ g b)
    (hab : TimerManager.Compare g a b = false) : TimerManager.Compare g b a = true := by
  cases hba : TimerManager.Compare g b a
  · exfalso
    apply hne
    rw [← equiv_iff]
    simp [TimerSet.equiv, hab, hba]
  · rfl

theorem Ordered_node (g : TimeHeap) (L R : TimerSet) (v : BaseTimerEvent) :
    Ordered g (L ++ v :: R) ↔
      Ordered g L ∧ Ordered g R ∧
      (∀ x ∈ L, TimerManager.Compare g x v = true) ∧
      (∀ x ∈ R, TimerManager.Compare g v x = true) := by
  unfold Ordered
  rw [List.pairwise_append, List.pairwise_cons]
  constructor
  · rintro ⟨hL, ⟨hv, hR⟩, hLR⟩
    exact ⟨hL, hR, fun x hx => hLR x hx v (List.mem_cons_self _ _), hv⟩
  · rintro ⟨hL, hR, hLv, hvR⟩
    refine ⟨hL, ⟨hvR, hR⟩, ?_⟩
    intro x hx y hy
    rcases List.mem_cons.1 hy with rfl | hy'
    · exact hLv x hx
    · exact Compare_trans g (hLv x hx) (hvR y hy')

theorem insert_append_before (g : TimeHeap) (k v : BaseTimerEvent) (a b : TimerSet)
    (hkv : TimerManager.Compare g k v = true) :
    TimerSet.insert g k (a ++ v :: b) =
      ((TimerSet.insert g k a).1 ++ v :: b, (TimerSet.insert g k a).2) := by
  induction a with
  | nil => simp [TimerSet.insert, hkv]
  | cons x xs ih =>
    cases h1 : TimerManager.Compare g k x
    · cases h2 : TimerManager.Compare g x k
      · rw [List.cons_append, insert_cons_equiv g k x _ h1 h2, insert_cons_equiv g k x _ h1 h2]
        rfl
      · rw [List.cons_append, insert_cons_after g k x _ h1 h2, insert_cons_after g k x _ h1 h2,
          ih]
        rfl
    · rw [List.cons_append, insert_cons_before g k x _ h1, insert_cons_before g k x _ h1]
      rfl

theorem insert_append_after (g : TimeHeap) (k : BaseTimerEvent) (a b : TimerSet)
    (ha : ∀ x ∈ a, TimerManager.Compare g x k = true) :
    TimerSet.insert g k (a ++ b) =
      (a ++ (TimerSet.insert g k b).1, (TimerSet.insert g k b).2) := by
  induction a with
  | nil => rfl
  | cons x xs ih =>
    have hx := ha x (List.mem_cons_self _ _)
    have hx' := Compare_asymm g hx
    rw [List.cons_append, insert_cons_after g k x _ hx' hx,
      ih (fun y hy => ha y (List.mem_cons_of_mem _ hy))]
    rfl

/-- On a tree in deadline order without an element of the deadline of `k`, the
descent links `k` where the container inserts it. -/
theorem Rb.toList_insertRec (g : TimeHeap) (k : BaseTimerEvent) (t : Rb.Tree)
    (hord : Ordered g t.toList) (hne : ∀ x ∈ t.toList, g x ≠ g k) :
    (Rb.insertRec g k t).1.toList = (TimerSet.insert g k t.toList).1 := by
  induction t with
  | nil => rfl
  | node c l v r ihl ihr =>
    simp only [Rb.Tree.toList] at hord hne ⊢
    obtain ⟨hL, hR, hLv, hvR⟩ := (Ordered_node g _ _ v).1 hord
    unfold Rb.insertRec
    cases hkv : TimerManager.Compare g k v
    · have hvk : TimerManager.Compare g v k = true :=
        Compare_total g (fun h => hne v (by simp) h.symm) hkv
      simp only [Bool.false_eq_true, if_false, Rb.toList_insertFixRight]
      rw [ihr hR (fun x hx => hne x (by simp [hx]))]
      rw [insert_append_after g k l.toList (v :: r.toList)
        (fun x hx => Compare_trans g (hLv x hx) hvk)]
      rw [insert_cons_after g k v _ hkv hvk]
    · simp only [if_true, Rb.toList_insertFixLeft]
      rw [ihl hL (fun x hx => hne x (by simp [hx]))]
      rw [insert_append_before g k v _ _ hkv]

theorem Rb.getInsertUniquePos_iff (g : TimeHeap) (k : BaseTimerEvent) (t : Rb.Tree)
    (j : Option BaseTimerEvent) (hord : Ordered g t.toList)
    (hj : ∀ j', j = some j' → ∀ x ∈ t.toList, TimerManager.Compare g j' x = true) :
    Rb.getInsertUniquePos g k t j = true ↔
      (∀ x ∈ t.toList, g x ≠ g k) ∧
      (∀ j', j = some j' → TimerManager.Compare g j' k = true) := by
  induction t generalizing j with
  | nil =>
    cases j with
    | none => simp [Rb.getInsertUniquePos, Rb.Tree.toList]
    | some j' => simp [Rb.getInsertUniquePos, Rb.Tree.toList]
  | node c l v r ihl ihr =>
    simp only [Rb.Tree.toList] at hord hj ⊢
    obtain ⟨hL, hR, hLv, hvR⟩ := (Ordered_node g _ _ v).1 hord
    unfold Rb.getInsertUniquePos
    cases hkv : TimerManager.Compare g k v
    · simp only [Bool.false_eq_true, if_false]
      rw [ihr (some v) hR (by
        intro j' hj' x hx
        cases hj'
        exact hvR x hx)]
      constructor
      · rintro ⟨hRne, hvk⟩
        have hvk' := hvk v rfl
        refine ⟨?_, ?_⟩
        · intro x hx
          rcases List.mem_append.1 hx with hxL | hxR
          · exact Compare_ne_time g (Compare_trans g (hLv x hxL) hvk')
          · rcases List.mem_cons.1 hxR with rfl | hxR'
            · exact Compare_ne_time g hvk'
            · exact hRne x hxR'
        · intro j' hj'
          exact Compare_trans g (hj j' hj' v (by simp)) hvk'
      · rintro ⟨hne, _⟩
        refine ⟨fun x hx => hne x (by simp [hx]), ?_⟩
        intro j' hj'
        cases hj'
        exact Compare_total g (fun h => hne v (by simp) h.symm) hkv
    · simp only [if_true]
      rw [ihl j hL (fun j' hj' x hx => hj j' hj' x (by simp [hx]))]
      constructor
      · rintro ⟨hLne, hjk⟩
        refine ⟨?_, hjk⟩
        intro x hx
        rcases List.mem_append.1 hx with hxL | hxR
        · exact hLne x hxL
        · rcases List.mem_cons.1 hxR with rfl | hxR'
          · exact fun h => Compare_ne_time g hkv h.symm
          · exact fun h => Compare_ne_time g (Compare_trans g hkv (hvR x hxR')) h.symm
      · rintro ⟨hne, hjk⟩
        exact ⟨fun x hx => hne x (by simp [hx]), hjk⟩

/-- On a tree in deadline order `insert` of the tree is `insert` of the
sequence. -/
theorem Rb.insertUnique_refines (g : TimeHeap) (k : BaseTimerEvent) (t : Rb.Tree)
    (hord : Ordered g t.toList) :
    ((Rb.insertUnique g k t).1.toList, (Rb.insertUnique g k t).2) =
      TimerSet.insert g k t.toList := by
  have hpos := Rb.getInsertUniquePos_iff g k t none hord (by intro j' hj'; cases hj')
  unfold Rb.insertUnique
  cases hp : Rb.getInsertUniquePos g k t none
  · have hex : ∃ x ∈ t.toList, g x = g k := by
      by_contra hcon
      have : Rb.getInsertUniquePos g k t none = true :=
        hpos.2 ⟨fun x hx h => hcon ⟨x, hx, h⟩, by intro j' hj'; cases hj'⟩
      rw [hp] at this
      cases this
    have hfalse := (insert_false_iff g k _ hord).2 hex
    have heq := insert_false_eq g k _ hfalse
    simp only [Bool.false_eq_true, if_false]
    rw [Prod.ext_iff]
    exact ⟨heq.symm, hfalse.symm⟩
  · have hne := (hpos.1 hp).1
    have htrue : (TimerSet.insert g k t.toList).2 = true := by
      cases hi : (TimerSet.insert g k t.toList).2
      · obtain ⟨x, hx, hxe⟩ := (insert_false_iff g k _ hord).1 hi
        exact absurd hxe (hne x hx)
      · rfl
    simp only [if_true]
    rw [Prod.ext_iff]
    refine ⟨?_, htrue.symm⟩
    simp only [Rb.insertAndRebalance, Rb.toList_setColor]
    exact Rb.toList_insertRec g k t hord hne

theorem take_eraseIdx_same (s : TimerSet) (i : Nat) : (s.eraseIdx i).take i = s.take i := by
  induction s generalizing i with
  | nil => rfl
  | cons x xs ih =>
    cases i with
    | zero => rfl
    | succ i => simp [List.eraseIdx, ih]

theorem drop_eraseIdx_add (s : TimerSet) (i n : Nat) :
    (s.eraseIdx i).drop (i + n) = s.drop (i + n + 1) := by
  induction s generalizing i with
  | nil => simp
  | cons x xs ih =>
    cases i with
    | zero => simp
    | succ i =>
      have h1 : i + 1 + n = (i + n) + 1 := by omega
      simp only [List.eraseIdx, h1, List.drop_succ_cons]
      exact ih i

theorem Rb.toList_eraseRange (t : Rb.Tree) (i n : Nat) :
    (Rb.eraseRange t i n).toList = t.toList.take i ++ t.toList.drop (i + n) := by
  induction n generalizing t with
  | zero => simp [Rb.eraseRange]
  | succ n ih =>
    rw [Rb.eraseRange, ih, Rb.toList_erasePosition, take_eraseIdx_same, drop_eraseIdx_add]
    rfl

theorem Rb.lowerBound_ordered (g : TimeHeap) (k : BaseTimerEvent) (t : Rb.Tree)
    (hord : Ordered g t.toList) :
    Rb.lowerBound g k t = t.toList.countP (fun x => TimerManager.Compare g x k) := by
  induction t with
  | nil => rfl
  | node c l v r ihl ihr =>
    simp only [Rb.Tree.toList] at hord ⊢
    obtain ⟨hL, hR, hLv, hvR⟩ := (Ordered_node g _ _ v).1 hord
    unfold Rb.lowerBound
    rw [List.countP_append, List.countP_cons]
    cases hvk : TimerManager.Compare g v k
    · have hR0 : r.toList.countP (fun x => TimerManager.Compare g x k) = 0 := by
        rw [List.countP_eq_zero]
        intro x hx hxk
        have := Compare_trans g (hvR x hx) hxk
        rw [hvk] at this
        cases this
      simp [hR0, ihl hL]
    · have hLall : l.toList.countP (fun x => TimerManager.Compare g x k) = l.toList.length := by
        rw [List.countP_eq_length]
        intro x hx
        exact Compare_trans g (hLv x hx) hvk
      simp only [Bool.not_true, Bool.false_eq_true, if_false, if_true, hLall, ihr hR,
        Rb.size_eq_length]
      omega

theorem Rb.upperBound_ordered (g : TimeHeap) (k : BaseTimerEvent) (t : Rb.Tree)
    (hord : Ordered g t.toList) :
    Rb.upperBound g k t = t.toList.countP (fun x => !TimerManager.Compare g k x) := by
  induction t with
  | nil => rfl
  | node c l v r ihl ihr =>
    simp only [Rb.Tree.toList] at hord ⊢
    obtain ⟨hL, hR, hLv, hvR⟩ := (Ordered_node g _ _ v).1 hord
    unfold Rb.upperBound
    rw [List.countP_append, List.countP_cons]
    cases hkv : TimerManager.Compare g k v
    · have hLall : l.toList.countP (fun x => !TimerManager.Compare g k x) = l.toList.length := by
        rw [List.countP_eq_length]
        intro x hx
        cases hkx : TimerManager.Compare g k x
        · rfl
        · have := Compare_trans g hkx (hLv x hx)
          rw [hkv] at this
          cases this
      simp only [Bool.false_eq_true, if_false, Bool.not_false, if_true, hLall, ihr hR,
        Rb.size_eq_length]
      omega
    · have hR0 : r.toList.countP (fun x => !TimerManager.Compare g k x) = 0 := by
        rw [List.countP_eq_zero]
        intro x hx
        simp [Compare_trans g hkv (hvR x hx)]
      simp [hR0, ihl hL]

/-- On a tree in deadline order `equal_range(k)` runs from the number of elements
ordered before `k` to the number of elements `k` is not ordered before. -/
theorem Rb.equalRange_ordered (g : TimeHeap) (k : BaseTimerEvent) (t : Rb.Tree)
    (hord : Ordered g t.toList) :
    Rb.equalRange g k t =
      (t.toList.countP (fun x => TimerManager.Compare g x k),
       t.toList.countP (fun x => !TimerManager.Compare g k x)) := by
  induction t with
  | nil => rfl
  | node c l v r ihl ihr =>
    have hlb := Rb.lowerBound_ordered g k l
    have hub := Rb.upperBound_ordered g k r
    simp only [Rb.Tree.toList] at hord ⊢
    obtain ⟨hL, hR, hLv, hvR⟩ := (Ordered_node g _ _ v).1 hord
    have hRlt0 : TimerManager.Compare g v k = false →
        r.toList.countP (fun x => TimerManager.Compare g x k) = 0 := by
      intro hvk
      rw [List.countP_eq_zero]
      intro x hx hxk
      have := Compare_trans g (hvR x hx) hxk
      rw [hvk] at this
      cases this
    have hLle : TimerManager.Compare g k v = false →
        l.toList.countP (fun x => !TimerManager.Compare g k x) = l.toList.length := by
      intro hkv
      rw [List.countP_eq_length]
      intro x hx
      cases hkx : TimerManager.Compare g k x
      · rfl
      · have := Compare_trans g hkx (hLv x hx)
        rw [hkv] at this
        cases this
    unfold Rb.equalRange
    rw [List.countP_append, List.countP_cons, List.countP_append, List.countP_cons]
    cases hvk : TimerManager.Compare g v k
    · cases hkv : TimerManager.Compare g k v
      · simp only [Bool.false_eq_true, if_false, Bool.not_false, if_true, hlb hL, hub hR,
          hRlt0 hvk, hLle hkv, Rb.size_eq_length]
        rw [Prod.ext_iff]
        constructor
        · simp
        · simp
          omega
      · have hR0 : r.toList.countP (fun x => !TimerManager.Compare g k x) = 0 := by
          rw [List.countP_eq_zero]
          intro x hx
          simp [Compare_trans g hkv (hvR x hx)]
        simp only [Bool.false_eq_true, if_false, if_true, Bool.not_true, ihl hL, hRlt0 hvk, hR0]
        rw [Prod.ext_iff]
        exact ⟨by simp, by simp⟩
    · have hkv : TimerManager.Compare g k v = false := Compare_asymm g hvk
      have hLall : l.toList.countP (fun x => TimerManager.Compare g x k) = l.toList.length := by
        rw [List.countP_eq_length]
        intro x hx
        exact Compare_trans g (hLv x hx) hvk
      simp only [if_true, hkv, Bool.not_false, ihr hR, hLall, hLle hkv, Rb.size_eq_length]
      rw [Prod.ext_iff]
      constructor <;> simp <;> omega

/-- On a sequence in deadline order, dropping the positions of `equal_range(k)`
is dropping the elements equivalent to `k`. -/
theorem take_drop_eq_filter (g : TimeHeap) (k : BaseTimerEvent) (s : TimerSet)
    (hord : Ordered g s) :
    s.take (s.countP (fun x => TimerManager.Compare g x k)) ++
        s.drop (s.countP (fun x => !TimerManager.Compare g k x)) =
      s.filter (fun x => !TimerSet.equiv g x k) ∧
    s.countP (fun x => TimerManager.Compare g x k) ≤
      s.countP (fun x => !TimerManager.Compare g k x) ∧
    s.countP (fun x => !TimerManager.Compare g k x) -
        s.countP (fun x => TimerManager.Compare g x k) =
      (s.filter (fun x => TimerSet.equiv g x k)).length := by
  induction s with
  | nil => simp
  | cons x xs ih =>
    have hord' := hord
    unfold Ordered at hord'
    rw [List.pairwise_cons] at hord'
    obtain ⟨hx, hxs⟩ := hord'
    obtain ⟨ih1, ih2, ih3⟩ := ih hxs
    rw [List.countP_cons, List.countP_cons, List.filter_cons, List.filter_cons]
    cases hxk : TimerManager.Compare g x k
    · have hlt0 : xs.countP (fun y => TimerManager.Compare g y k) = 0 := by
        rw [List.countP_eq_zero]
        intro y hy hyk
        have := Compare_trans g (hx y hy) hyk
        rw [hxk] at this
        cases this
      have hrest : (∀ y ∈ xs, TimerManager.Compare g k y = true) →
          xs.countP (fun y => !TimerManager.Compare g k y) = 0 ∧
          xs.filter (fun y => !TimerSet.equiv g y k) = xs ∧
          xs.filter (fun y => TimerSet.equiv g y k) = [] := by
        intro hky
        refine ⟨?_, ?_, ?_⟩
        · rw [List.countP_eq_zero]
          intro y hy
          simp [hky y hy]
        · rw [List.filter_eq_self]
          intro y hy
          simp [TimerSet.equiv, hky y hy]
        · rw [List.filter_eq_nil_iff]
          intro y hy
          simp [TimerSet.equiv, hky y hy]
      cases hkx : TimerManager.Compare g k x
      · have hqx : TimerSet.equiv g x k = true := by simp [TimerSet.equiv, hxk, hkx]
        have hgx : g x = g k := (equiv_iff g x k).1 hqx
        obtain ⟨hle0, hkeep, hnone⟩ := hrest (by
          intro y hy
          rw [← Compare_congr_left g y hgx]
          exact hx y hy)
        rw [hlt0, hle0, hkeep, hnone, hqx]
        simp
      · have hqx : TimerSet.equiv g x k = false := by simp [TimerSet.equiv, hxk, hkx]
        obtain ⟨hle0, hkeep, hnone⟩ :=
          hrest (fun y hy => Compare_trans g hkx (hx y hy))
        rw [hlt0, hle0, hkeep, hnone, hqx]
        simp
    · have hkx : TimerManager.Compare g k x = false := Compare_asymm g hxk
      have hqx : TimerSet.equiv g x k = false := by simp [TimerSet.equiv, hxk, hkx]
      rw [hqx]
      simp only [hkx, if_true, Bool.not_false, List.take_succ_cons, List.drop_succ_cons,
        List.cons_append, Bool.false_eq_true, if_false]
      refine ⟨?_, by omega, ?_⟩
      · rw [ih1]
      · rw [← ih3]
        omega

/-- On a tree in deadline order `erase(key)` of the tree is `erase(key)` of the
sequence. -/
theorem Rb.eraseKey_refines (g : TimeHeap) (k : BaseTimerEvent) (t : Rb.Tree)
    (hord : Ordered g t.toList) :
    ((Rb.eraseKey g k t).1.toList, (Rb.eraseKey g k t).2) = TimerSet.erase g k t.toList := by
  obtain ⟨h1, h2, h3⟩ := take_drop_eq_filter g k t.toList hord
  have her := Rb.equalRange_ordered g k t hord
  unfold Rb.eraseKey TimerSet.erase
  rw [her]
  simp only
  split_ifs with hc
  · obtain ⟨hc1, hc2⟩ := hc
    rw [hc1, hc2, Rb.size_eq_length] at h1 h3
    rw [Prod.ext_iff]
    constructor
    · simp only [Rb.Tree.toList]
      rw [← h1]
      simp
    · simp only [Rb.size_eq_length]
      rw [← h3]
      simp
  · rw [Prod.ext_iff]
    constructor
    · simp only [Rb.toList_eraseRange]
      rw [← h1]
      congr 2
      omega
    · exact h3

/-- On a tree in deadline order `AddEvent` of the tree is `AddEvent` of the
sequence. -/
theorem tree_AddEvent_refines (g : TimeHeap) (e : BaseTimerEvent) (t : Rb.Tree)
    (hord : Ordered g t.toList) :
    ((Rb.TimerManager.AddEvent g e t).1.toList, (Rb.TimerManager.AddEvent g e t).2) =
      TimerManager.AddEvent g e t.toList := by
  have h := Prod.ext_iff.1 (Rb.insertUnique_refines g e t hord)
  simp only at h
  unfold Rb.TimerManager.AddEvent TimerManager.AddEvent
  simp only [h.1, h.2]

/-- On a tree in deadline order `DeleteEvent` of the tree is `DeleteEvent` of the
sequence. -/
theorem tree_DeleteEvent_refines (g : TimeHeap) (e : BaseTimerEvent) (t : Rb.Tree)
    (hord : Ordered g t.toList) :
    ((Rb.TimerManager.DeleteEvent g e t).1.toList, (Rb.TimerManager.DeleteEvent g e t).2) =
      TimerManager.DeleteEvent g e t.toList := by
  have h := Prod.ext_iff.1 (Rb.eraseKey_refines g e t hord)
  simp only at h
  unfold Rb.TimerManager.DeleteEvent TimerManager.DeleteEvent
  simp only [h.1, h.2]

/-- On a tree in deadline order `UpdateEvent` of the tree is `UpdateEvent` of the
sequence. -/
theorem tree_UpdateEvent_refines (g : TimeHeap) (e : BaseTimerEvent) (t : Rb.Tree)
    (hord : Ordered g t.toList) :
    ((Rb.TimerManager.UpdateEvent g e t).1.toList, (Rb.TimerManager.UpdateEvent g e t).2) =
      TimerManager.UpdateEvent g e t.toList := by
  have h := Prod.ext_iff.1 (Rb.eraseKey_refines g e t hord)
  simp only at h
  have hord' : Ordered g (Rb.eraseKey g e t).1.toList := by
    rw [h.1]
    exact erase_ordered g e _ hord
  have h2 := tree_AddEvent_refines g e (Rb.eraseKey g e t).1 hord'
  unfold Rb.TimerManager.UpdateEvent
  rw [h2, h.1]
  rfl

/-- Under one heap every sequence of registry calls on a tree in deadline order
leaves the tree whose iteration sequence is the result of the same calls on the
sequence. -/
theorem tree_runOps_refines (g : TimeHeap) (ops : List TimerOp) (t : Rb.Tree)
    (hord : Ordered g t.toList) :
    (Rb.runOps g ops t).toList = runOps g ops t.toList := by
  induction ops generalizing t with
  | nil => rfl
  | cons op ops ih =>
    have hstep : (Rb.applyOp g t op).toList = TimerOp.apply g t.toList op := by
      cases op with
      | add e => exact (Prod.ext_iff.1 (tree_AddEvent_refines g e t hord)).1
      | delete e => exact (Prod.ext_iff.1 (tree_DeleteEvent_refines g e t hord)).1
      | update e => exact (Prod.ext_iff.1 (tree_UpdateEvent_refines g e t hord)).1
    have hord' : Ordered g (Rb.applyOp g t op).toList := by
      rw [hstep]
      exact apply_ordered g _ op hord
    show (Rb.runOps g ops (Rb.applyOp g t op)).toList = runOps g ops (TimerOp.apply g t.toList op)
    rw [ih _ hord', hstep]

/-! ## Rescheduling a tracked event -/

/-- C5, evaluated: events 3, 5 and 7, due at 3 s, 5 s and 7 s, are tracked; the
deadline of event 3 is set to 6 s and `UpdateEvent` is called on it.  The erase
step looks for the new deadline, finds nothing and erases nothing; the insert
step adds a second entry.  The call returns 0 and event 3 is tracked twice, once
at its old place in front of event 5. -/
theorem TimerManager.UpdateEvent_tracks_twice :
    treeThree = .node .black (.node .red .nil 3 .nil) 5 (.node .red .nil 7 .nil) ∧
    Rb.eraseKey heapMoved 3 treeThree = (treeThree, 0) ∧
    Rb.TimerManager.UpdateEvent heapMoved 3 treeThree =
      (.node .black (.node .black .nil 3 .nil) 5
        (.node .black (.node .red .nil 3 .nil) 7 .nil), 0) ∧
    (Rb.TimerManager.UpdateEvent heapMoved 3 treeThree).1.toList = [3, 5, 3, 7] ∧
    (Rb.TimerManager.UpdateEvent heapMoved 3 treeThree).1.toList.count 3 = 2 := by
  decide

/-- C1, evaluated: the registry reached by `AddEvent` of events 3, 5 and 7 (due
at 3 s, 5 s and 7 s), a change of the deadline of event 3 to 6 s and
`UpdateEvent` of event 3 holds event 3 twice, and a pass at 10 s with a handler
that does nothing fires event 3 twice: four handler calls for three tracked
events.  Erasing `begin()` from the tree once and twice shows the entries the
pass meets. -/
theorem EventLoop.DoTimeout_fires_rescheduled_twice :
    treeThree.toList = [3, 5, 7] ∧
    (Rb.TimerManager.UpdateEvent heapMoved 3 treeThree).1.toList = [3, 5, 3, 7] ∧
    (Rb.erasePosition (Rb.TimerManager.UpdateEvent heapMoved 3 treeThree).1 0).toList =
      [5, 3, 7] ∧
    (Rb.eraseRange (Rb.TimerManager.UpdateEvent heapMoved 3 treeThree).1 0 2).toList =
      [3, 7] ∧
    (EventLoop.DoTimeout noopProcess ⟨10, 0⟩ 10
        (⟨(Rb.TimerManager.UpdateEvent heapMoved 3 treeThree).1.toList, heapMoved, ()⟩ :
          World Unit)).map (fun r => (r.ret, r.fired, r.world.timers_)) =
      some (4, [3, 5, 3, 7], []) := by
  decide

end eventloop
